import Mathlib

/-!
The XOR overlay of leveldb-mcne on the LevelDB file abstraction.

A shallow embedding of `src/leveldb_mcne.cc` / `src/leveldb_mcne.h`.

* A `char` is a `Byte` (eight bits); a key, the content of a file and the data handed to
  `Append` are lists of bytes.
* `size_t` and `uint64_t` are natural numbers reduced modulo `2 ^ 64` where the source adds;
  `int` is four bytes wide, laid out in the byte order of the host, which is a parameter.
* The underlying `Env` and its file handles (`leveldb/env.h`) are a parameter: a record of
  operations over a world `W` (disk and everything else a call may change) and handle states.
* A read gets the caller's scratch buffer and leaves behind a status, the `Slice` it set
  `*result` to, and the scratch buffer as it is after the call.
* `offset %= key.size()` with an empty key is undefined in the source; the embedding returns
  `none` there.
-/

namespace leveldb

/-- One `char` of storage. -/
abbrev Byte := Fin 256

/-- The bytes of an ASCII string literal. -/
def bytesOf (s : String) : List Byte := s.data.map (fun c => Fin.ofNat c.toNat)

/-- Arithmetic on `size_t` and `uint64_t` wraps at this modulus. -/
def kWordModulus : Nat := 2 ^ 64

/-- The status codes of `leveldb::Status`, with the two message parts. -/
inductive Status where
  | OK
  | NotFound (msg msg2 : String)
  | Corruption (msg msg2 : String)
  | NotSupported (msg msg2 : String)
  | InvalidArgument (msg msg2 : String)
  | IOError (msg msg2 : String)
deriving DecidableEq, Repr

/-- The source's `Status::ok()`. -/
def Status.ok : Status → Bool
  | .OK => true
  | _ => false

/-- The value a read leaves in `*result`: the slice either designates the first `size` bytes
of the caller's scratch buffer, or bytes in storage that the handle owns. -/
inductive Slice where
  | inScratch (size : Nat)
  | external (bytes : List Byte)
deriving DecidableEq, Repr

/-- The source's `Slice::size()`. -/
def Slice.size : Slice → Nat
  | .inScratch size => size
  | .external bytes => bytes.length

/-- The bytes a caller sees through the slice, given the scratch buffer as it is now. -/
def Slice.data (scratch : List Byte) : Slice → List Byte
  | .inScratch size => scratch.take size
  | .external bytes => bytes

/-- The loop of `PerformXorOn`: `rem` is `data->size() - i`. -/
def PerformXorOn.loop (key : List Byte) : Nat → Nat → Nat → List Byte → List Byte
  | 0, _, _, scratch => scratch
  | rem + 1, i, j, scratch =>
    let j := if j ≥ key.length then j % key.length else j
    PerformXorOn.loop key rem (i + 1) (j + 1) (scratch.set i (scratch.getD i 0 ^^^ key.getD j 0))

/-- The source's `PerformXorOn(scratch, data, key, offset)`: XORs `scratch[0 .. data->size())`
with the repeating key; `none` is the undefined `offset %= 0`. -/
def PerformXorOn (scratch : List Byte) (data : Slice) (key : List Byte) (offset : Nat) :
    Option (List Byte) :=
  if key.length = 0 then none
  else
    let offset := offset % key.length
    some (PerformXorOn.loop key data.size 0 offset scratch)

/-- The source's `MaybeEncrypted(fname)`; a file name is a string of one-byte characters. -/
def MaybeEncrypted (fname : String) : Bool :=
  if fname.length < 4 then true
  else if fname.data.drop (fname.length - 4) = ".log".data then false
  else true

/-- The source's `McneWrapper::kMagicNum`. -/
def kMagicNum : Nat := 0x01301D80

/-- The source's `McneWrapper::kMagicNumSize`. -/
def kMagicNumSize : Nat := 4

/-- Byte order of the host, which fixes how the `int` of the header union lies in memory. -/
inductive ByteOrder where
  | little
  | big
deriving DecidableEq, Repr

/-- The store `buf.num = num`: the four bytes of `buf.buf` after the `int` member is set. -/
def storeNum (host : ByteOrder) (num : Nat) : List Byte :=
  let b0 : Byte := Fin.ofNat (num % 256)
  let b1 : Byte := Fin.ofNat (num / 256 % 256)
  let b2 : Byte := Fin.ofNat (num / 65536 % 256)
  let b3 : Byte := Fin.ofNat (num / 16777216 % 256)
  match host with
  | .little => [b0, b1, b2, b3]
  | .big => [b3, b2, b1, b0]

/-- The load `buf.num`: the `int` member read back from the bytes of `buf.buf` (as its unsigned
bit pattern, which decides `!=` just as the signed value does). -/
def loadNum (host : ByteOrder) (buf : List Byte) : Nat :=
  let b (i : Nat) : Nat := (buf.getD i 0).val
  match host with
  | .little => b 0 + 256 * b 1 + 65536 * b 2 + 16777216 * b 3
  | .big => b 3 + 256 * b 2 + 65536 * b 1 + 16777216 * b 0

/-- What `Read(..., Slice *result, char *scratch)` leaves behind. -/
structure ReadRet where
  s : Status
  result : Slice
  scratch : List Byte
deriving DecidableEq, Repr

/-- The underlying environment `target()` and the handles it produces (`leveldb/env.h`),
taken as a parameter. `W` is the world a call may change; `HS`, `HR`, `HW` are the states of
sequential, random-access and writable handles. -/
structure Env (W HS HR HW : Type) where
  NewSequentialFile : String → W → Status × HS × W
  NewRandomAccessFile : String → W → Status × HR × W
  NewWritableFile : String → W → Status × HW × W
  NewAppendableFile : String → W → Status × HW × W
  seqRead : HS → Nat → List Byte → W → ReadRet × HS × W
  seqSkip : HS → Nat → W → Status × HS × W
  seqDelete : HS → W → W
  raRead : HR → Nat → Nat → List Byte → W → ReadRet × W
  raDelete : HR → W → W
  wAppend : HW → List Byte → W → Status × HW × W
  wClose : HW → W → Status × HW × W
  wFlush : HW → W → Status × HW × W
  wSync : HW → W → Status × HW × W
  wDelete : HW → W → W

section Decorators

variable {W HS HR HW : Type}

/-- The fields of `class McneSequentialFile`. -/
structure McneSequentialFile (HS : Type) where
  pFile : HS
  key : List Byte
  offset : Nat
  isEncrypted : Bool
deriving DecidableEq, Repr

/-- The constructor `McneSequentialFile::McneSequentialFile(pFile, key)`. -/
def McneSequentialFile.construct (pFile : HS) (key : List Byte) :
    McneSequentialFile HS :=
  let self : McneSequentialFile HS := { pFile := pFile, key := key, offset := 0, isEncrypted := true }
  if key.length = 0 then { self with isEncrypted := false } else self

/-- The source's `McneSequentialFile::Read(n, result, scratch)`. -/
def McneSequentialFile.Read (env : Env W HS HR HW) (self : McneSequentialFile HS) (n : Nat)
    (scratch : List Byte) (w : W) : Option (ReadRet × McneSequentialFile HS × W) :=
  match env.seqRead self.pFile n scratch w with
  | (r, pFile, w) =>
    let self := { self with pFile := pFile }
    if !self.isEncrypted || !r.s.ok then some (r, self, w)
    else
      match PerformXorOn r.scratch r.result self.key self.offset with
      | none => none
      | some scratch =>
        some ({ r with scratch := scratch },
              { self with offset := (self.offset + n) % kWordModulus }, w)

/-- The source's `McneSequentialFile::Skip(n)`. -/
def McneSequentialFile.Skip (env : Env W HS HR HW) (self : McneSequentialFile HS) (n : Nat)
    (w : W) : Status × McneSequentialFile HS × W :=
  match env.seqSkip self.pFile n w with
  | (s, pFile, w) =>
    let self := { self with pFile := pFile }
    if !s.ok then (s, self, w)
    else (s, { self with offset := (self.offset + n) % kWordModulus }, w)

/-- The fields of `class McneRandomAccessFile`. -/
structure McneRandomAccessFile (HR : Type) where
  pFile : HR
  key : List Byte
  isEncrypted : Bool
deriving DecidableEq, Repr

/-- The constructor `McneRandomAccessFile::McneRandomAccessFile(pFile, key)`. -/
def McneRandomAccessFile.construct (pFile : HR) (key : List Byte) :
    McneRandomAccessFile HR :=
  let self : McneRandomAccessFile HR := { pFile := pFile, key := key, isEncrypted := true }
  if key.length = 0 then { self with isEncrypted := false } else self

/-- The source's `McneRandomAccessFile::Read(offset, n, result, scratch) const`. -/
def McneRandomAccessFile.Read (env : Env W HS HR HW) (self : McneRandomAccessFile HR)
    (offset n : Nat) (scratch : List Byte) (w : W) : Option (ReadRet × W) :=
  match env.raRead self.pFile ((kMagicNumSize + offset) % kWordModulus) n scratch w with
  | (r, w) =>
    if !self.isEncrypted || !r.s.ok then some (r, w)
    else
      match PerformXorOn r.scratch r.result self.key offset with
      | none => none
      | some scratch => some ({ r with scratch := scratch }, w)

/-- The fields of `class McneWritableFile`. -/
structure McneWritableFile (HW : Type) where
  pFile : HW
  key : List Byte
  offset : Nat
  isEncrypted : Bool
deriving DecidableEq, Repr

/-- The constructor `McneWritableFile::McneWritableFile(pFile, key)`. -/
def McneWritableFile.construct (pFile : HW) (key : List Byte) : McneWritableFile HW :=
  let self : McneWritableFile HW := { pFile := pFile, key := key, offset := 0, isEncrypted := true }
  if key.length = 0 then { self with isEncrypted := false } else self

/-- The source's `McneWritableFile::Append(data)`: `localData` is the copy, `enc` the slice
over it. -/
def McneWritableFile.Append (env : Env W HS HR HW) (self : McneWritableFile HW)
    (data : List Byte) (w : W) : Option (Status × McneWritableFile HW × W) :=
  let localData := data
  let enc := Slice.inScratch localData.length
  let encrypted : Option (List Byte) :=
    if self.isEncrypted then PerformXorOn localData enc self.key self.offset
    else some localData
  match encrypted with
  | none => none
  | some localData =>
    match env.wAppend self.pFile (enc.data localData) w with
    | (s, pFile, w) =>
      some (s, { self with pFile := pFile, offset := (self.offset + data.length) % kWordModulus }, w)

/-- The source's `McneWritableFile::Close()`. -/
def McneWritableFile.Close (env : Env W HS HR HW) (self : McneWritableFile HW) (w : W) :
    Status × McneWritableFile HW × W :=
  match env.wClose self.pFile w with
  | (s, pFile, w) => (s, { self with pFile := pFile }, w)

/-- The source's `McneWritableFile::Flush()`. -/
def McneWritableFile.Flush (env : Env W HS HR HW) (self : McneWritableFile HW) (w : W) :
    Status × McneWritableFile HW × W :=
  match env.wFlush self.pFile w with
  | (s, pFile, w) => (s, { self with pFile := pFile }, w)

/-- The source's `McneWritableFile::Sync()`. -/
def McneWritableFile.Sync (env : Env W HS HR HW) (self : McneWritableFile HW) (w : W) :
    Status × McneWritableFile HW × W :=
  match env.wSync self.pFile w with
  | (s, pFile, w) => (s, { self with pFile := pFile }, w)

end Decorators

section Factory

variable {W HS HR HW : Type}

/-- What a `SequentialFile *` handed back by the factory points to: the underlying handle
itself, or a `McneSequentialFile` that owns it. -/
inductive SequentialFile (HS : Type) where
  | raw (pFile : HS)
  | mcne (file : McneSequentialFile HS)
deriving DecidableEq, Repr

/-- What a `RandomAccessFile *` handed back by the factory points to. -/
inductive RandomAccessFile (HR : Type) where
  | raw (pFile : HR)
  | mcne (file : McneRandomAccessFile HR)
deriving DecidableEq, Repr

/-- What a `WritableFile *` handed back by the factory points to. -/
inductive WritableFile (HW : Type) where
  | raw (pFile : HW)
  | mcne (file : McneWritableFile HW)
deriving DecidableEq, Repr

/-- The outcome of a factory call: the returned status, the pointer stored in `*result`
(`none` when `*result` is not assigned), and the world afterwards. -/
structure Opened (H W : Type) where
  s : Status
  result : Option H
  w : W

/-- The source's `McneWrapper::NewSequentialFile(fname, result)`. `buf` is the content of the union
before the header read, which the source leaves uninitialised. -/
def McneWrapper.NewSequentialFile (env : Env W HS HR HW) (host : ByteOrder) (key : List Byte)
    (fname : String) (buf : List Byte) (w : W) : Opened (SequentialFile HS) W :=
  match env.NewSequentialFile fname w with
  | (s, pFile, w) =>
    if !s.ok then ⟨s, none, w⟩
    else if key.length = 0 || !MaybeEncrypted fname then ⟨Status.OK, some (.raw pFile), w⟩
    else
      match env.seqRead pFile kMagicNumSize buf w with
      | (r, pFile, w) =>
        if !r.s.ok then ⟨r.s, none, env.seqDelete pFile w⟩
        else if loadNum host r.scratch ≠ kMagicNum then
          ⟨Status.Corruption "corrupted encrypted file" "", none, env.seqDelete pFile w⟩
        else ⟨Status.OK, some (.mcne (McneSequentialFile.construct pFile key)), w⟩

/-- The source's `McneWrapper::NewRandomAccessFile(fname, result)`. `buf` is the content of the
union before the header read, which the source leaves uninitialised. -/
def McneWrapper.NewRandomAccessFile (env : Env W HS HR HW) (host : ByteOrder)
    (key : List Byte) (fname : String) (buf : List Byte) (w : W) :
    Opened (RandomAccessFile HR) W :=
  match env.NewRandomAccessFile fname w with
  | (s, pFile, w) =>
    if !s.ok then ⟨s, none, w⟩
    else if key.length = 0 || !MaybeEncrypted fname then ⟨Status.OK, some (.raw pFile), w⟩
    else
      match env.raRead pFile 0 kMagicNumSize buf w with
      | (r, w) =>
        if !r.s.ok then ⟨r.s, none, env.raDelete pFile w⟩
        else if loadNum host r.scratch ≠ kMagicNum then
          ⟨Status.Corruption "corrupted encrypted file" "", none, env.raDelete pFile w⟩
        else ⟨Status.OK, some (.mcne (McneRandomAccessFile.construct pFile key)), w⟩

/-- The source's `McneWrapper::NewWritableFile(fname, result)`. -/
def McneWrapper.NewWritableFile (env : Env W HS HR HW) (host : ByteOrder) (key : List Byte)
    (fname : String) (w : W) : Opened (WritableFile HW) W :=
  match env.NewWritableFile fname w with
  | (s, pFile, w) =>
    if !s.ok then ⟨s, none, w⟩
    else if key.length = 0 || !MaybeEncrypted fname then ⟨Status.OK, some (.raw pFile), w⟩
    else
      let buf := storeNum host kMagicNum
      let magicNumber := buf.take kMagicNumSize
      match env.wAppend pFile magicNumber w with
      | (s, pFile, w) =>
        if !s.ok then ⟨s, none, env.wDelete pFile w⟩
        else ⟨Status.OK, some (.mcne (McneWritableFile.construct pFile key)), w⟩

/-- The source's `McneWrapper::NewAppendableFile(fname, result)`. -/
def McneWrapper.NewAppendableFile (_env : Env W HS HR HW) (_key : List Byte)
    (fname : String) (w : W) : Opened (WritableFile HW) W :=
  ⟨Status.NotSupported "NewAppendableFile" fname, none, w⟩

/-- The virtual call `file->Read(n, result, scratch)` on a `SequentialFile *`. -/
def SequentialFile.Read (env : Env W HS HR HW) (file : SequentialFile HS) (n : Nat)
    (scratch : List Byte) (w : W) : Option (ReadRet × SequentialFile HS × W) :=
  match file with
  | .raw pFile =>
    match env.seqRead pFile n scratch w with
    | (r, pFile, w) => some (r, .raw pFile, w)
  | .mcne file =>
    match file.Read env n scratch w with
    | none => none
    | some (r, file, w) => some (r, .mcne file, w)

/-- The virtual call `file->Skip(n)` on a `SequentialFile *`. -/
def SequentialFile.Skip (env : Env W HS HR HW) (file : SequentialFile HS) (n : Nat) (w : W) :
    Status × SequentialFile HS × W :=
  match file with
  | .raw pFile =>
    match env.seqSkip pFile n w with
    | (s, pFile, w) => (s, .raw pFile, w)
  | .mcne file =>
    match file.Skip env n w with
    | (s, file, w) => (s, .mcne file, w)

/-- The virtual call `file->Read(offset, n, result, scratch)` on a `RandomAccessFile *`. -/
def RandomAccessFile.Read (env : Env W HS HR HW) (file : RandomAccessFile HR)
    (offset n : Nat) (scratch : List Byte) (w : W) : Option (ReadRet × W) :=
  match file with
  | .raw pFile => some (env.raRead pFile offset n scratch w)
  | .mcne file => file.Read env offset n scratch w

/-- The virtual call `file->Append(data)` on a `WritableFile *`. -/
def WritableFile.Append (env : Env W HS HR HW) (file : WritableFile HW) (data : List Byte)
    (w : W) : Option (Status × WritableFile HW × W) :=
  match file with
  | .raw pFile =>
    match env.wAppend pFile data w with
    | (s, pFile, w) => some (s, .raw pFile, w)
  | .mcne file =>
    match file.Append env data w with
    | none => none
    | some (s, file, w) => some (s, .mcne file, w)

end Factory

section Reference

/-- Modelled from the spec: the state behind the underlying storage interface of section 6
(`leveldb/env.h`, not part of the sources): the files on disk, and how many underlying
handles are open and not yet deleted. -/
structure MemWorld where
  files : String → Option (List Byte)
  live : Nat

/-- Modelled from the spec: the state of an underlying sequential handle (`leveldb/env.h`,
not part of the sources): the file and the position of the next byte to read. -/
structure MemSequentialFile where
  fname : String
  pos : Nat
deriving DecidableEq, Repr

/-- The disk with `fname` holding `content`. -/
def MemWorld.put (w : MemWorld) (fname : String) (content : List Byte) : MemWorld :=
  { w with files := fun name => if name = fname then some content else w.files name }

/-- A handle was deleted. -/
def MemWorld.release (w : MemWorld) : MemWorld := { w with live := w.live - 1 }

/-- A handle was opened. -/
def MemWorld.acquire (w : MemWorld) : MemWorld := { w with live := w.live + 1 }

/-- The scratch buffer after `bytes` were stored at its start. -/
def storeAt (scratch bytes : List Byte) : List Byte := bytes ++ scratch.drop bytes.length

/-- Modelled from the spec: the underlying storage handle interface of section 6
(`leveldb/env.h`: `Env`, `SequentialFile`, `RandomAccessFile`, `WritableFile`), which is not
part of the sources. A file is its byte content; a sequential read of `n` bytes returns the
next `min n remaining` bytes and advances; an offset read returns the bytes at that offset;
an append extends the content; opening for write creates the file empty. Reads store the
bytes in the caller's scratch buffer and set `*result` to them there. -/
def memEnv : Env MemWorld MemSequentialFile String String where
  NewSequentialFile := fun fname w =>
    match w.files fname with
    | none => (Status.NotFound fname "", ⟨fname, 0⟩, w)
    | some _ => (Status.OK, ⟨fname, 0⟩, w.acquire)
  NewRandomAccessFile := fun fname w =>
    match w.files fname with
    | none => (Status.NotFound fname "", fname, w)
    | some _ => (Status.OK, fname, w.acquire)
  NewWritableFile := fun fname w => (Status.OK, fname, (w.put fname []).acquire)
  NewAppendableFile := fun fname w =>
    match w.files fname with
    | none => (Status.OK, fname, (w.put fname []).acquire)
    | some _ => (Status.OK, fname, w.acquire)
  seqRead := fun h n scratch w =>
    match w.files h.fname with
    | none => (⟨Status.IOError h.fname "", Slice.inScratch 0, scratch⟩, h, w)
    | some content =>
      let bytes := (content.drop h.pos).take n
      (⟨Status.OK, Slice.inScratch bytes.length, storeAt scratch bytes⟩,
        { h with pos := h.pos + bytes.length }, w)
  seqSkip := fun h n w =>
    match w.files h.fname with
    | none => (Status.IOError h.fname "", h, w)
    | some content => (Status.OK, { h with pos := min (h.pos + n) content.length }, w)
  seqDelete := fun _ w => w.release
  raRead := fun h offset n scratch w =>
    match w.files h with
    | none => (⟨Status.IOError h "", Slice.inScratch 0, scratch⟩, w)
    | some content =>
      if offset > content.length then
        (⟨Status.IOError "Offset greater than file size." "", Slice.inScratch 0, scratch⟩, w)
      else
        let bytes := (content.drop offset).take n
        (⟨Status.OK, Slice.inScratch bytes.length, storeAt scratch bytes⟩, w)
  raDelete := fun _ w => w.release
  wAppend := fun h data w =>
    match w.files h with
    | none => (Status.IOError h "", h, w)
    | some content => (Status.OK, h, w.put h (content ++ data))
  wClose := fun h w => (Status.OK, h, w)
  wFlush := fun h w => (Status.OK, h, w)
  wSync := fun h w => (Status.OK, h, w)
  wDelete := fun _ w => w.release

/-- An empty disk. -/
def MemWorld.empty : MemWorld := { files := fun _ => none, live := 0 }

end Reference

section Drivers

variable {W HS HR HW : Type}

/-- A caller appending the strings of `ds` in order; yields the statuses returned. -/
def WritableFile.appendAll (env : Env W HS HR HW) :
    WritableFile HW → List (List Byte) → W → Option (List Status × WritableFile HW × W)
  | file, [], w => some ([], file, w)
  | file, d :: ds, w =>
    match file.Append env d w with
    | none => none
    | some (s, file, w) =>
      match WritableFile.appendAll env file ds w with
      | none => none
      | some (ss, file, w) => some (s :: ss, file, w)

/-- A caller issuing the reads of `reqs` in order, each with its own length and scratch
buffer; yields, per read, the status and the bytes seen through `*result`. -/
def SequentialFile.readAll (env : Env W HS HR HW) :
    SequentialFile HS → List (Nat × List Byte) → W →
      Option (List (Status × List Byte) × SequentialFile HS × W)
  | file, [], w => some ([], file, w)
  | file, (n, scratch) :: reqs, w =>
    match file.Read env n scratch w with
    | none => none
    | some (r, file, w) =>
      match SequentialFile.readAll env file reqs w with
      | none => none
      | some (rs, file, w) => some ((r.s, r.result.data r.scratch) :: rs, file, w)

/-- A caller issuing the offset reads of `reqs` in order, each with its own offset, length
and scratch buffer; yields, per read, the status and the bytes seen through `*result`. -/
def RandomAccessFile.readAll (env : Env W HS HR HW) (file : RandomAccessFile HR) :
    List (Nat × Nat × List Byte) → W → Option (List (Status × List Byte) × W)
  | [], w => some ([], w)
  | (offset, n, scratch) :: reqs, w =>
    match file.Read env offset n scratch w with
    | none => none
    | some (r, w) =>
      match RandomAccessFile.readAll env file reqs w with
      | none => none
      | some (rs, w) => some ((r.s, r.result.data r.scratch) :: rs, w)

/-- The plaintext cut into the pieces successive reads of the given lengths deliver: each
read gets the next `min n remaining` bytes. -/
def chunks (plain : List Byte) : List Nat → List (List Byte)
  | [] => []
  | n :: ns => plain.take n :: chunks (plain.drop n) ns

/-- What a caller observes in a write-then-read scenario: the status of the creating
factory call, the statuses of the appends, the status of the reopening factory call, and per
read the status and the bytes delivered. -/
structure RoundTrip where
  created : Status
  appended : List Status
  opened : Status
  reads : List (Status × List Byte)
deriving DecidableEq, Repr

/-- Write then read back sequentially: create `fname` through the factory, append `ds`
through the returned file, reopen it through the factory and issue the reads `reqs`; `none`
if a factory call does not hand back a file or a call is undefined. -/
def sequentialRoundTrip (host : ByteOrder) (key : List Byte) (fname : String)
    (ds : List (List Byte)) (buf : List Byte) (reqs : List (Nat × List Byte))
    (w : MemWorld) : Option RoundTrip :=
  match McneWrapper.NewWritableFile memEnv host key fname w with
  | ⟨_, none, _⟩ => none
  | ⟨created, some wfile, w⟩ =>
    match wfile.appendAll memEnv ds w with
    | none => none
    | some (ss, _, w) =>
      match McneWrapper.NewSequentialFile memEnv host key fname buf w with
      | ⟨_, none, _⟩ => none
      | ⟨opened, some sfile, w⟩ =>
        match sfile.readAll memEnv reqs w with
        | none => none
        | some (rs, _, _) => some ⟨created, ss, opened, rs⟩

/-- Write then read back at offsets: create `fname` through the factory, append `ds`
through the returned file, reopen it for random access through the factory and issue the
offset reads `reqs`. -/
def randomAccessRoundTrip (host : ByteOrder) (key : List Byte) (fname : String)
    (ds : List (List Byte)) (buf : List Byte) (reqs : List (Nat × Nat × List Byte))
    (w : MemWorld) : Option RoundTrip :=
  match McneWrapper.NewWritableFile memEnv host key fname w with
  | ⟨_, none, _⟩ => none
  | ⟨created, some wfile, w⟩ =>
    match wfile.appendAll memEnv ds w with
    | none => none
    | some (ss, _, w) =>
      match McneWrapper.NewRandomAccessFile memEnv host key fname buf w with
      | ⟨_, none, _⟩ => none
      | ⟨opened, some rfile, w⟩ =>
        match rfile.readAll memEnv reqs w with
        | none => none
        | some (rs, _) => some ⟨created, ss, opened, rs⟩

end Drivers

section Reference

/-- The keystream equation in the spec's words: byte `i` of `bytes` is XORed with
`key[(phase + i) mod keyLength]`. -/
def xorStream (key : List Byte) (phase : Nat) : List Byte → List Byte
  | [] => []
  | b :: bs => (b ^^^ key.getD (phase % key.length) 0) :: xorStream key (phase + 1) bs

/-- "Ends with the 4-character suffix `.log`", in the spec's words. -/
def endsWithLog (fname : String) : Prop := ".log".data <:+ fname.data

instance (fname : String) : Decidable (endsWithLog fname) := by
  unfold endsWithLog; infer_instance

/-- Plain delegation, in the spec's words: the status of the underlying call, its handle
handed back as it is when the call succeeded (and no handle otherwise), and the world as
that call left it. -/
def delegate {H F W : Type} (raw : H → F) (r : Status × H × W) : Opened F W :=
  ⟨r.1, if r.1.ok then some (raw r.2.1) else none, r.2.2⟩

/-- The content of `fname` on the reference environment after it was created through the
factory and `ds` appended through the returned file. -/
def writtenFile (host : ByteOrder) (key : List Byte) (fname : String)
    (ds : List (List Byte)) (w : MemWorld) : Option (List Byte) :=
  match McneWrapper.NewWritableFile memEnv host key fname w with
  | ⟨_, none, _⟩ => none
  | ⟨_, some wfile, w⟩ =>
    match wfile.appendAll memEnv ds w with
    | none => none
    | some (_, _, w) => w.files fname

end Reference

section Scenarios

variable {W HS HR HW : Type}

/-- Modelled from the spec: the underlying storage handle interface of section 6
(`leveldb/env.h`, not part of the sources) in the variant where a read sets `*result` to
bytes in storage that the handle owns, as a memory-mapped or block-backed file does, and
leaves the caller's scratch buffer untouched. Everything else is as in `memEnv`. -/
def mapEnv : Env MemWorld MemSequentialFile String String :=
  { memEnv with
    seqRead := fun h n scratch w =>
      match w.files h.fname with
      | none => (⟨Status.IOError h.fname "", Slice.inScratch 0, scratch⟩, h, w)
      | some content =>
        let bytes := (content.drop h.pos).take n
        (⟨Status.OK, Slice.external bytes, scratch⟩, { h with pos := h.pos + bytes.length }, w)
    raRead := fun h offset n scratch w =>
      match w.files h with
      | none => (⟨Status.IOError h "", Slice.inScratch 0, scratch⟩, w)
      | some content =>
        if offset > content.length then
          (⟨Status.IOError "Offset greater than file size." "", Slice.inScratch 0, scratch⟩, w)
        else
          (⟨Status.OK, Slice.external ((content.drop offset).take n), scratch⟩, w) }

/-- The environment `env` keeping, next to its world, a log of the byte strings handed to
`Append` of its writable handles. -/
def logAppends (env : Env W HS HR HW) : Env (W × List (List Byte)) HS HR HW where
  NewSequentialFile := fun fname w =>
    match env.NewSequentialFile fname w.1 with
    | (s, h, w1) => (s, h, (w1, w.2))
  NewRandomAccessFile := fun fname w =>
    match env.NewRandomAccessFile fname w.1 with
    | (s, h, w1) => (s, h, (w1, w.2))
  NewWritableFile := fun fname w =>
    match env.NewWritableFile fname w.1 with
    | (s, h, w1) => (s, h, (w1, w.2))
  NewAppendableFile := fun fname w =>
    match env.NewAppendableFile fname w.1 with
    | (s, h, w1) => (s, h, (w1, w.2))
  seqRead := fun h n scratch w =>
    match env.seqRead h n scratch w.1 with
    | (r, h, w1) => (r, h, (w1, w.2))
  seqSkip := fun h n w =>
    match env.seqSkip h n w.1 with
    | (s, h, w1) => (s, h, (w1, w.2))
  seqDelete := fun h w => (env.seqDelete h w.1, w.2)
  raRead := fun h offset n scratch w =>
    match env.raRead h offset n scratch w.1 with
    | (r, w1) => (r, (w1, w.2))
  raDelete := fun h w => (env.raDelete h w.1, w.2)
  wAppend := fun h data w =>
    match env.wAppend h data w.1 with
    | (s, h, w1) => (s, h, (w1, w.2 ++ [data]))
  wClose := fun h w =>
    match env.wClose h w.1 with
    | (s, h, w1) => (s, h, (w1, w.2))
  wFlush := fun h w =>
    match env.wFlush h w.1 with
    | (s, h, w1) => (s, h, (w1, w.2))
  wSync := fun h w =>
    match env.wSync h w.1 with
    | (s, h, w1) => (s, h, (w1, w.2))
  wDelete := fun h w => (env.wDelete h w.1, w.2)

/-- One call on a sequential decorator: a read with its length and scratch buffer, or a
skip. -/
inductive SeqOp where
  | read (n : Nat) (scratch : List Byte)
  | skip (n : Nat)
deriving DecidableEq, Repr

/-- What a call on a sequential decorator did: the status returned, the count requested, and
the number of plaintext bytes it consumed (bytes delivered through `*result` by a successful
read, bytes skipped by a successful skip, none on failure). -/
structure SeqOutcome where
  s : Status
  requested : Nat
  consumed : Nat
deriving DecidableEq, Repr

/-- A caller issuing the calls `ops` in order on a `McneSequentialFile`; `none` if a call is
undefined. -/
def McneSequentialFile.run (env : Env W HS HR HW) :
    McneSequentialFile HS → List SeqOp → W →
      Option (List SeqOutcome × McneSequentialFile HS × W)
  | self, [], w => some ([], self, w)
  | self, .read n scratch :: ops, w =>
    match self.Read env n scratch w with
    | none => none
    | some (r, self, w) =>
      match McneSequentialFile.run env self ops w with
      | none => none
      | some (outs, self, w) =>
        some (⟨r.s, n, if r.s.ok then r.result.size else 0⟩ :: outs, self, w)
  | self, .skip n :: ops, w =>
    match self.Skip env n w with
    | (s, self, w) =>
      match McneSequentialFile.run env self ops w with
      | none => none
      | some (outs, self, w) => some (⟨s, n, if s.ok then n else 0⟩ :: outs, self, w)

/-- A caller appending the strings of `ds` in order on a `McneWritableFile`; yields the
statuses returned; `none` if a call is undefined. -/
def McneWritableFile.run (env : Env W HS HR HW) :
    McneWritableFile HW → List (List Byte) → W →
      Option (List Status × McneWritableFile HW × W)
  | self, [], w => some ([], self, w)
  | self, d :: ds, w =>
    match self.Append env d w with
    | none => none
    | some (s, self, w) =>
      match McneWritableFile.run env self ds w with
      | none => none
      | some (ss, self, w) => some (s :: ss, self, w)

/-- The total count requested by the calls that succeeded. -/
def requestedByOk (outs : List SeqOutcome) : Nat :=
  ((outs.filter (fun out => out.s.ok)).map SeqOutcome.requested).sum

/-- The total number of plaintext bytes consumed: delivered by reads plus skipped. -/
def consumedTotal (outs : List SeqOutcome) : Nat :=
  (outs.map SeqOutcome.consumed).sum

/-- The key index `j` that the loop of `PerformXorOn` uses at iteration `i`: `offset` reduced
modulo the key length first, then incremented each round and reduced when it reaches the key
length. -/
def PerformXorOn.jAt (key : List Byte) (offset : Nat) : Nat → Nat
  | 0 =>
    let j := offset % key.length
    if j ≥ key.length then j % key.length else j
  | i + 1 =>
    let j := PerformXorOn.jAt key offset i + 1
    if j ≥ key.length then j % key.length else j

/-- Write then read back sequentially over any underlying environment: create `fname`
through the factory, append `ds` through the returned file, reopen it through the factory and
issue the reads `reqs`. When the reopening call hands back no file its status is reported and
there are no reads; `none` if the creating call hands back no file or a call is undefined. -/
def sequentialRoundTripOn (env : Env W HS HR HW) (host : ByteOrder) (key : List Byte)
    (fname : String) (ds : List (List Byte)) (buf : List Byte)
    (reqs : List (Nat × List Byte)) (w : W) : Option RoundTrip :=
  match McneWrapper.NewWritableFile env host key fname w with
  | ⟨_, none, _⟩ => none
  | ⟨created, some wfile, w⟩ =>
    match wfile.appendAll env ds w with
    | none => none
    | some (ss, _, w) =>
      match McneWrapper.NewSequentialFile env host key fname buf w with
      | ⟨opened, none, _⟩ => some ⟨created, ss, opened, []⟩
      | ⟨opened, some sfile, w⟩ =>
        match sfile.readAll env reqs w with
        | none => none
        | some (rs, _, _) => some ⟨created, ss, opened, rs⟩

/-- Write then read back at offsets over any underlying environment: create `fname` through
the factory, append `ds` through the returned file, reopen it for random access through the
factory and issue the offset reads `reqs`. When the reopening call hands back no file its
status is reported and there are no reads. -/
def randomAccessRoundTripOn (env : Env W HS HR HW) (host : ByteOrder) (key : List Byte)
    (fname : String) (ds : List (List Byte)) (buf : List Byte)
    (reqs : List (Nat × Nat × List Byte)) (w : W) : Option RoundTrip :=
  match McneWrapper.NewWritableFile env host key fname w with
  | ⟨_, none, _⟩ => none
  | ⟨created, some wfile, w⟩ =>
    match wfile.appendAll env ds w with
    | none => none
    | some (ss, _, w) =>
      match McneWrapper.NewRandomAccessFile env host key fname buf w with
      | ⟨opened, none, _⟩ => some ⟨created, ss, opened, []⟩
      | ⟨opened, some rfile, w⟩ =>
        match rfile.readAll env reqs w with
        | none => none
        | some (rs, _) => some ⟨created, ss, opened, rs⟩

/-- A disk holding the file `000005.ldb` as `NewWritableFile` and `Append` leave it on a
little-endian host under key `secret` after the payload `hello world` was appended: the
marker, then the encrypted payload. -/
def sampleWorld : MemWorld :=
  MemWorld.empty.put "000005.ldb"
    (storeNum .little kMagicNum ++ xorStream (bytesOf "secret") 0 (bytesOf "hello world"))

end Scenarios

/-! ## The keystream -/

theorem Byte.val_xor (a k : Byte) : (a ^^^ k).val = a.val ^^^ k.val := by
  rcases a with ⟨a, ha⟩
  rcases k with ⟨k, hk⟩
  show (a ^^^ k) % 256 = a ^^^ k
  exact Nat.mod_eq_of_lt (Nat.xor_lt_two_pow (n := 8) ha hk)

theorem Byte.xor_xor_cancel (a k : Byte) : (a ^^^ k) ^^^ k = a := by
  apply Fin.ext
  rw [Byte.val_xor, Byte.val_xor, Nat.xor_cancel_right]

@[simp] theorem xorStream_nil (key : List Byte) (p : Nat) : xorStream key p [] = [] := rfl

@[simp] theorem xorStream_length (key : List Byte) (p : Nat) (l : List Byte) :
    (xorStream key p l).length = l.length := by
  induction l generalizing p with
  | nil => rfl
  | cons b bs ih => simp [xorStream, ih]

theorem xorStream_append (key : List Byte) (p : Nat) (a b : List Byte) :
    xorStream key p (a ++ b) = xorStream key p a ++ xorStream key (p + a.length) b := by
  induction a generalizing p with
  | nil => simp
  | cons x xs ih =>
    have h : p + 1 + xs.length = p + (xs.length + 1) := by omega
    show (x ^^^ key.getD (p % key.length) 0) :: xorStream key (p + 1) (xs ++ b) = _
    rw [ih, h]
    rfl

theorem xorStream_involutive (key : List Byte) (p : Nat) (l : List Byte) :
    xorStream key p (xorStream key p l) = l := by
  induction l generalizing p with
  | nil => rfl
  | cons b bs ih => simp [xorStream, ih, Byte.xor_xor_cancel]

theorem xorStream_take (key : List Byte) (p n : Nat) (l : List Byte) :
    (xorStream key p l).take n = xorStream key p (l.take n) := by
  induction l generalizing p n with
  | nil => simp
  | cons b bs ih =>
    cases n with
    | zero => simp
    | succ n => simp [xorStream, ih]

theorem xorStream_drop (key : List Byte) (p n : Nat) (l : List Byte) :
    (xorStream key p l).drop n = xorStream key (p + n) (l.drop n) := by
  induction l generalizing p n with
  | nil => simp
  | cons b bs ih =>
    cases n with
    | zero => simp
    | succ n =>
      simp only [xorStream, List.drop_succ_cons, ih]
      congr 1
      omega

theorem xorStream_congr (key : List Byte) (p q : Nat) (l : List Byte)
    (h : p % key.length = q % key.length) : xorStream key p l = xorStream key q l := by
  induction l generalizing p q with
  | nil => rfl
  | cons b bs ih =>
    simp only [xorStream, h]
    congr 1
    apply ih
    rw [Nat.add_mod, h, ← Nat.add_mod]

/-- Past the end of the scratch buffer the loop of `PerformXorOn` stores nothing. -/
theorem PerformXorOn.loop_of_length_le (key : List Byte) (rem : Nat) :
    ∀ (i j : Nat) (scratch : List Byte), scratch.length ≤ i →
      PerformXorOn.loop key rem i j scratch = scratch := by
  induction rem with
  | zero => intro i j scratch _; rfl
  | succ rem ih =>
    intro i j scratch h
    simp only [PerformXorOn.loop]
    rw [List.set_eq_of_length_le h]
    exact ih _ _ _ (by omega)

/-- The loop of `PerformXorOn`, entered at index `pre.length` with the wrapped key index
`j` standing for phase `p`, XORs the next `rem` bytes with the keystream at phase `p`. -/
theorem PerformXorOn.loop_eq (key : List Byte) (hkey : 0 < key.length) (rem : Nat) :
    ∀ (pre rest : List Byte) (j p : Nat), j ≤ key.length → j % key.length = p % key.length →
      PerformXorOn.loop key rem pre.length j (pre ++ rest)
        = pre ++ xorStream key p (rest.take rem) ++ rest.drop rem := by
  induction rem with
  | zero => intro pre rest j p _ _; simp [PerformXorOn.loop]
  | succ rem ih =>
    intro pre rest j p hj hjp
    have hj2 : (if j ≥ key.length then j % key.length else j) = p % key.length := by
      split
      · exact hjp
      · rw [← hjp]; exact (Nat.mod_eq_of_lt (by omega)).symm
    simp only [PerformXorOn.loop, hj2]
    cases rest with
    | nil =>
      have h0 : (pre ++ ([] : List Byte)).set pre.length
          ((pre ++ ([] : List Byte)).getD pre.length 0 ^^^ key.getD (p % key.length) 0)
          = pre ++ [] := by
        rw [List.set_eq_of_length_le]; simp
      rw [h0, List.append_nil, PerformXorOn.loop_of_length_le key rem _ _ pre (by omega)]
      simp
    | cons b bs =>
      have h1 : (pre ++ b :: bs).getD pre.length 0 = b := by
        rw [List.getD_append_right _ _ _ _ (le_refl _)]; simp
      have h2 : (pre ++ b :: bs).set pre.length (b ^^^ key.getD (p % key.length) 0)
          = (pre ++ [b ^^^ key.getD (p % key.length) 0]) ++ bs := by
        rw [List.set_append_right _ _ (le_refl _)]; simp
      rw [h1, h2]
      have := ih (pre ++ [b ^^^ key.getD (p % key.length) 0]) bs (p % key.length + 1) (p + 1)
        (Nat.succ_le_of_lt (Nat.mod_lt _ hkey)) (by rw [Nat.add_mod, Nat.mod_mod, ← Nat.add_mod])
      simp only [List.length_append, List.length_singleton] at this
      rw [this]
      simp [xorStream]

/-- With a non-empty key `PerformXorOn` is defined and XORs the first `data->size()` bytes of
the scratch buffer with the keystream at phase `offset`, leaving the rest as it was. -/
theorem PerformXorOn_eq (scratch : List Byte) (data : Slice) (key : List Byte) (offset : Nat)
    (hkey : key ≠ []) :
    PerformXorOn scratch data key offset
      = some (xorStream key offset (scratch.take data.size) ++ scratch.drop data.size) := by
  have hlen : 0 < key.length := List.length_pos.mpr hkey
  have hne : key.length ≠ 0 := by omega
  simp only [PerformXorOn, hne, if_false]
  have := PerformXorOn.loop_eq key hlen data.size [] scratch (offset % key.length) offset
    (Nat.le_of_lt (Nat.mod_lt _ hlen)) (Nat.mod_mod _ _)
  simpa using this

/-! ## The file-kind classifier -/

theorem MaybeEncrypted_eq_false_iff (fname : String) :
    MaybeEncrypted fname = false ↔ endsWithLog fname := by
  have h4 : ".log".data.length = 4 := rfl
  have hdef : MaybeEncrypted fname = (if fname.data.length < 4 then true
      else if fname.data.drop (fname.data.length - 4) = ".log".data then false else true) := rfl
  rw [hdef]
  unfold endsWithLog
  rw [List.suffix_iff_eq_drop, h4]
  by_cases h : fname.data.length < 4
  · rw [if_pos h]
    constructor
    · intro hc; cases hc
    · intro hc
      have := congrArg List.length hc
      rw [h4, List.length_drop] at this
      omega
  · rw [if_neg h]
    by_cases hd : List.drop (fname.data.length - 4) fname.data = ".log".data
    · rw [if_pos hd]
      exact ⟨fun _ => hd.symm, fun _ => rfl⟩
    · rw [if_neg hd]
      constructor
      · intro hc; cases hc
      · intro hc; exact absurd hc.symm hd

theorem MaybeEncrypted_eq_true_iff (fname : String) :
    MaybeEncrypted fname = true ↔ ¬ endsWithLog fname := by
  rw [← MaybeEncrypted_eq_false_iff]
  cases MaybeEncrypted fname <;> simp

theorem MaybeEncrypted_of_length_lt (fname : String) (h : fname.length < 4) :
    MaybeEncrypted fname = true := by
  simp [MaybeEncrypted, h]

/-! ## The header union -/

theorem storeNum_little : storeNum .little kMagicNum = [0x80, 0x1D, 0x30, 0x01] := by decide

theorem storeNum_big : storeNum .big kMagicNum = [0x01, 0x30, 0x1D, 0x80] := by decide

theorem storeNum_length (host : ByteOrder) (num : Nat) : (storeNum host num).length = 4 := by
  cases host <;> rfl

/-- Reading the `int` back from a buffer that starts with the stored marker gives the
marker. -/
theorem loadNum_storeNum_append (host : ByteOrder) (rest : List Byte) :
    loadNum host (storeNum host kMagicNum ++ rest) = kMagicNum := by
  cases host
  · rw [storeNum_little]; simp only [loadNum, kMagicNum, List.cons_append, List.getD_cons_zero,
      List.getD_cons_succ]; decide
  · rw [storeNum_big]; simp only [loadNum, kMagicNum, List.cons_append, List.getD_cons_zero,
      List.getD_cons_succ]; decide

/-- On four bytes and more, the `int` member equals the marker exactly when the first four
bytes are the stored marker. -/
theorem loadNum_eq_iff (host : ByteOrder) (buf : List Byte) (h : 4 ≤ buf.length) :
    loadNum host buf = kMagicNum ↔ buf.take 4 = storeNum host kMagicNum := by
  match buf, h with
  | a :: b :: c :: d :: rest, _ =>
    have ha := a.isLt
    have hb := b.isLt
    have hc := c.isLt
    have hd := d.isLt
    cases host
    · rw [storeNum_little]
      simp only [loadNum, kMagicNum, List.getD_cons_zero, List.getD_cons_succ, List.take_succ_cons,
        List.take_zero, List.cons.injEq, and_true]
      constructor
      · intro e
        refine ⟨Fin.ext ?_, Fin.ext ?_, Fin.ext ?_, Fin.ext ?_⟩ <;> (try simp) <;> omega
      · rintro ⟨rfl, rfl, rfl, rfl⟩; decide
    · rw [storeNum_big]
      simp only [loadNum, kMagicNum, List.getD_cons_zero, List.getD_cons_succ, List.take_succ_cons,
        List.take_zero, List.cons.injEq, and_true]
      constructor
      · intro e
        refine ⟨Fin.ext ?_, Fin.ext ?_, Fin.ext ?_, Fin.ext ?_⟩ <;> (try simp) <;> omega
      · rintro ⟨rfl, rfl, rfl, rfl⟩; decide

/-! ## The reference environment -/

@[simp] theorem MemWorld.put_files_same (w : MemWorld) (fname : String) (c : List Byte) :
    (w.put fname c).files fname = some c := by
  simp [MemWorld.put]

@[simp] theorem MemWorld.acquire_files (w : MemWorld) : w.acquire.files = w.files := rfl

@[simp] theorem MemWorld.release_files (w : MemWorld) : w.release.files = w.files := rfl

@[simp] theorem storeAt_take (scratch bytes : List Byte) :
    (storeAt scratch bytes).take bytes.length = bytes := by
  simp [storeAt]

@[simp] theorem storeAt_drop (scratch bytes : List Byte) :
    (storeAt scratch bytes).drop bytes.length = scratch.drop bytes.length := by
  simp [storeAt]

/-- Creating an eligible file under a non-empty key on the reference environment: the file
holds the stored marker and a fresh write decorator is handed back. -/
theorem memEnv_NewWritableFile (host : ByteOrder) (key : List Byte) (fname : String)
    (w : MemWorld) (hkey : key ≠ []) (hname : ¬ endsWithLog fname) :
    McneWrapper.NewWritableFile memEnv host key fname w
      = ⟨Status.OK, some (.mcne ⟨fname, key, 0, true⟩),
          ((w.put fname []).acquire).put fname (storeNum host kMagicNum)⟩ := by
  have hlen : key.length ≠ 0 := fun h => hkey (List.length_eq_zero.mp h)
  have hm : MaybeEncrypted fname = true := (MaybeEncrypted_eq_true_iff fname).mpr hname
  have ht : (storeNum host kMagicNum).take kMagicNumSize = storeNum host kMagicNum := by
    cases host <;> rfl
  simp [McneWrapper.NewWritableFile, memEnv, Status.ok, hlen, hm, ht,
    McneWritableFile.construct]

/-- One `Append` through the write decorator on the reference environment. -/
theorem memEnv_Append (key : List Byte) (fname : String) (offset : Nat) (d c : List Byte)
    (w : MemWorld) (hkey : key ≠ []) (hfile : w.files fname = some c) :
    McneWritableFile.Append memEnv ⟨fname, key, offset, true⟩ d w
      = some (Status.OK, ⟨fname, key, (offset + d.length) % kWordModulus, true⟩,
          w.put fname (c ++ xorStream key offset d)) := by
  simp [McneWritableFile.Append, PerformXorOn_eq _ _ _ _ hkey, Slice.size, Slice.data, memEnv,
    hfile, xorStream_take]

/-- Appending `ds` through a write decorator on the reference environment extends the file by
the keystream encryption of the concatenation, and every append succeeds. -/
theorem memEnv_appendAll (key : List Byte) (fname : String) (hkey : key ≠ []) :
    ∀ (ds : List (List Byte)) (offset : Nat) (c : List Byte) (w : MemWorld),
      w.files fname = some c → offset + ds.flatten.length < kWordModulus →
      ∃ file w1, WritableFile.appendAll memEnv (.mcne ⟨fname, key, offset, true⟩) ds w
          = some (ds.map (fun _ => Status.OK), file, w1)
        ∧ w1.files fname = some (c ++ xorStream key offset ds.flatten) := by
  intro ds
  induction ds with
  | nil =>
    intro offset c w hfile _
    exact ⟨_, _, rfl, by simpa using hfile⟩
  | cons d ds ih =>
    intro offset c w hfile hsize
    rw [List.flatten_cons, List.length_append] at hsize
    have hoff : (offset + d.length) % kWordModulus = offset + d.length :=
      Nat.mod_eq_of_lt (by omega)
    obtain ⟨file, w1, hrun, hfiles⟩ := ih (offset + d.length) (c ++ xorStream key offset d)
      (w.put fname (c ++ xorStream key offset d)) (by simp) (by omega)
    refine ⟨file, w1, ?_, ?_⟩
    · simp only [WritableFile.appendAll, WritableFile.Append,
        memEnv_Append key fname offset d c w hkey hfile, hoff, hrun, List.map_cons]
    · rw [hfiles, List.flatten_cons, xorStream_append, List.append_assoc]

/-- Opening a file that starts with the stored marker for sequential reading on the reference
environment hands back a fresh read decorator positioned after the marker. -/
theorem memEnv_NewSequentialFile (host : ByteOrder) (key : List Byte) (fname : String)
    (buf rest : List Byte) (w : MemWorld) (hkey : key ≠ []) (hname : ¬ endsWithLog fname)
    (hfile : w.files fname = some (storeNum host kMagicNum ++ rest)) :
    McneWrapper.NewSequentialFile memEnv host key fname buf w
      = ⟨Status.OK, some (.mcne ⟨⟨fname, 4⟩, key, 0, true⟩), w.acquire⟩ := by
  have hlen : key.length ≠ 0 := fun h => hkey (List.length_eq_zero.mp h)
  have hm : MaybeEncrypted fname = true := (MaybeEncrypted_eq_true_iff fname).mpr hname
  have ht : (storeNum host kMagicNum ++ rest).take 4 = storeNum host kMagicNum := by
    have := List.take_left (storeNum host kMagicNum) rest
    rwa [storeNum_length] at this
  simp [McneWrapper.NewSequentialFile, memEnv, kMagicNumSize, Status.ok, hlen, hm, hfile, ht, storeAt,
    loadNum_storeNum_append, McneSequentialFile.construct, storeNum_length]

/-- Opening a file that starts with the stored marker for random access on the reference
environment hands back a read decorator. -/
theorem memEnv_NewRandomAccessFile (host : ByteOrder) (key : List Byte) (fname : String)
    (buf rest : List Byte) (w : MemWorld) (hkey : key ≠ []) (hname : ¬ endsWithLog fname)
    (hfile : w.files fname = some (storeNum host kMagicNum ++ rest)) :
    McneWrapper.NewRandomAccessFile memEnv host key fname buf w
      = ⟨Status.OK, some (.mcne ⟨fname, key, true⟩), w.acquire⟩ := by
  have hlen : key.length ≠ 0 := fun h => hkey (List.length_eq_zero.mp h)
  have hm : MaybeEncrypted fname = true := (MaybeEncrypted_eq_true_iff fname).mpr hname
  have ht : (storeNum host kMagicNum ++ rest).take 4 = storeNum host kMagicNum := by
    have := List.take_left (storeNum host kMagicNum) rest
    rwa [storeNum_length] at this
  simp [McneWrapper.NewRandomAccessFile, memEnv, kMagicNumSize, Status.ok, hlen, hm, hfile, ht, storeAt,
    loadNum_storeNum_append, McneRandomAccessFile.construct, storeNum_length]

/-- One `Read` through the sequential decorator on the reference environment. -/
theorem memEnv_seqRead (key : List Byte) (fname : String) (pos offset n : Nat)
    (scratch c : List Byte) (w : MemWorld) (hkey : key ≠ [])
    (hfile : w.files fname = some c) :
    McneSequentialFile.Read memEnv ⟨⟨fname, pos⟩, key, offset, true⟩ n scratch w
      = some (⟨Status.OK, Slice.inScratch ((c.drop pos).take n).length,
            xorStream key offset ((c.drop pos).take n)
              ++ scratch.drop ((c.drop pos).take n).length⟩,
          ⟨⟨fname, pos + ((c.drop pos).take n).length⟩, key,
            (offset + n) % kWordModulus, true⟩, w) := by
  simp only [McneSequentialFile.Read, memEnv, hfile, Status.ok, Bool.not_true, Bool.or_self,
    Bool.false_eq_true, if_false, PerformXorOn_eq _ _ _ _ hkey, Slice.size, storeAt_take,
    storeAt_drop]

/-- One `Read` through the random-access decorator on the reference environment. -/
theorem memEnv_raRead (key : List Byte) (fname : String) (offset n : Nat)
    (scratch c : List Byte) (w : MemWorld) (hkey : key ≠ [])
    (hfile : w.files fname = some c) (hoff : kMagicNumSize + offset ≤ c.length)
    (hsize : c.length < kWordModulus) :
    McneRandomAccessFile.Read memEnv ⟨fname, key, true⟩ offset n scratch w
      = some (⟨Status.OK, Slice.inScratch ((c.drop (kMagicNumSize + offset)).take n).length,
            xorStream key offset ((c.drop (kMagicNumSize + offset)).take n)
              ++ scratch.drop ((c.drop (kMagicNumSize + offset)).take n).length⟩, w) := by
  have hmod : (kMagicNumSize + offset) % kWordModulus = kMagicNumSize + offset :=
    Nat.mod_eq_of_lt (by omega)
  have hle : ¬ (kMagicNumSize + offset > c.length) := by omega
  simp only [McneRandomAccessFile.Read, memEnv, hfile, hmod, hle, if_false, Status.ok,
    Bool.not_true, Bool.or_self, Bool.false_eq_true, PerformXorOn_eq _ _ _ _ hkey, Slice.size,
    storeAt_take, storeAt_drop]

/-- The bytes of the stored file that a read at logical position `q` meets are the keystream
encryption, at phase `q`, of the plaintext there. -/
theorem stored_drop_take (key hdr plain : List Byte) (q n : Nat) :
    ((hdr ++ xorStream key 0 plain).drop (hdr.length + q)).take n
      = xorStream key q ((plain.drop q).take n) := by
  rw [List.drop_append_eq_append_drop, List.drop_of_length_le (by omega), List.nil_append,
    Nat.add_sub_cancel_left, xorStream_drop, Nat.zero_add, xorStream_take]

/-- Successive reads through the sequential decorator on the reference environment deliver
the plaintext piece by piece. The running offset equals the logical position `q` as long as
the end of the file has not been reached. -/
theorem memEnv_readAll (key : List Byte) (fname : String) (hkey : key ≠ [])
    (hdr plain : List Byte) (w : MemWorld)
    (hfile : w.files fname = some (hdr ++ xorStream key 0 plain))
    (hsize : plain.length < kWordModulus) :
    ∀ (reqs : List (Nat × List Byte)) (q offset : Nat), q ≤ plain.length →
      (offset = q ∨ q = plain.length) →
      ∃ file w1, SequentialFile.readAll memEnv
          (.mcne ⟨⟨fname, hdr.length + q⟩, key, offset, true⟩) reqs w
        = some ((chunks (plain.drop q) (reqs.map Prod.fst)).map (fun c => (Status.OK, c)),
            file, w1) := by
  intro reqs
  induction reqs with
  | nil => intro q offset _ _; exact ⟨_, _, rfl⟩
  | cons req reqs ih =>
    obtain ⟨n, scratch⟩ := req
    intro q offset hq hinv
    have hlenY : ((plain.drop q).take n).length = min n (plain.length - q) := by
      rw [List.length_take, List.length_drop]
    -- the piece delivered by this read
    have hseen : (xorStream key offset (xorStream key q ((plain.drop q).take n))
          ++ scratch.drop (xorStream key q ((plain.drop q).take n)).length).take
            (xorStream key q ((plain.drop q).take n)).length
        = (plain.drop q).take n := by
      rw [List.take_append_of_le_length (by simp), List.take_of_length_le (by simp)]
      rcases hinv with h | h
      · rw [h, xorStream_involutive]
      · have : (plain.drop q).take n = [] := by
          rw [h, List.drop_length, List.take_nil]
        rw [this]; rfl
    -- the state after this read
    have hq1 : q + ((plain.drop q).take n).length ≤ plain.length := by
      rw [hlenY]; omega
    have hinv1 : (offset + n) % kWordModulus = q + ((plain.drop q).take n).length
        ∨ q + ((plain.drop q).take n).length = plain.length := by
      rw [hlenY]
      by_cases hn : n ≤ plain.length - q
      · rcases hinv with h | h
        · left
          rw [h, Nat.min_eq_left hn]
          exact Nat.mod_eq_of_lt (by omega)
        · right; omega
      · right; omega
    have hrest : plain.drop (q + ((plain.drop q).take n).length) = (plain.drop q).drop n := by
      rw [List.drop_drop, hlenY]
      by_cases hn : n ≤ plain.length - q
      · rw [Nat.min_eq_left hn]
      · rw [Nat.min_eq_right (by omega), List.drop_of_length_le (by omega),
          List.drop_of_length_le (by omega)]
    obtain ⟨file, w1, hrun⟩ := ih (q + ((plain.drop q).take n).length)
      ((offset + n) % kWordModulus) hq1 hinv1
    refine ⟨file, w1, ?_⟩
    rw [← Nat.add_assoc] at hrun
    simp only [SequentialFile.readAll, SequentialFile.Read,
      memEnv_seqRead key fname _ offset n scratch _ w hkey hfile, stored_drop_take,
      xorStream_length, hrun, Slice.data, List.map_cons, chunks]
    rw [hrest]
    simp only [xorStream_length] at hseen
    rw [hseen]

/-- Offset reads through the random-access decorator on the reference environment deliver
the plaintext at the logical offset, whatever was read before. -/
theorem memEnv_raReadAll (key : List Byte) (fname : String) (hkey : key ≠ [])
    (hdr plain : List Byte) (w : MemWorld) (hhdr : hdr.length = kMagicNumSize)
    (hfile : w.files fname = some (hdr ++ xorStream key 0 plain))
    (hsize : kMagicNumSize + plain.length < kWordModulus) :
    ∀ (reqs : List (Nat × Nat × List Byte)),
      (∀ req ∈ reqs, req.1 + req.2.1 ≤ plain.length) →
      ∃ w1, RandomAccessFile.readAll memEnv (.mcne ⟨fname, key, true⟩) reqs w
        = some (reqs.map (fun req => (Status.OK, (plain.drop req.1).take req.2.1)), w1) := by
  intro reqs
  induction reqs with
  | nil => intro _; exact ⟨_, rfl⟩
  | cons req reqs ih =>
    obtain ⟨o, n, scratch⟩ := req
    intro hreqs
    have ho : o + n ≤ plain.length := hreqs (o, n, scratch) (List.mem_cons_self _ _)
    obtain ⟨w1, hrun⟩ := ih (fun r hr => hreqs r (List.mem_cons_of_mem _ hr))
    refine ⟨w1, ?_⟩
    have hread := memEnv_raRead key fname o n scratch _ w hkey hfile
      (by simp only [List.length_append, xorStream_length, hhdr]; omega)
      (by simp only [List.length_append, xorStream_length, hhdr]; omega)
    rw [← hhdr, stored_drop_take] at hread
    simp only [RandomAccessFile.readAll, RandomAccessFile.Read, hread, hrun, Slice.data,
      List.map_cons, xorStream_length]
    rw [List.take_append_of_le_length (by simp), List.take_of_length_le (by simp),
      xorStream_involutive]

/-- The header check of `NewSequentialFile` on the reference environment, for a file of at
least four bytes: the file is accepted exactly when its first four bytes are the stored
marker; otherwise the call fails with Corruption, hands back nothing and deletes the
underlying handle. -/
theorem memEnv_NewSequentialFile_check (host : ByteOrder) (key : List Byte) (fname : String)
    (buf content : List Byte) (w : MemWorld) (hkey : key ≠ []) (hname : ¬ endsWithLog fname)
    (hfile : w.files fname = some content) (h4 : 4 ≤ content.length) :
    McneWrapper.NewSequentialFile memEnv host key fname buf w
      = if content.take 4 = storeNum host kMagicNum then
          ⟨Status.OK, some (.mcne ⟨⟨fname, 4⟩, key, 0, true⟩), w.acquire⟩
        else ⟨Status.Corruption "corrupted encrypted file" "", none, w.acquire.release⟩ := by
  have hlen : key.length ≠ 0 := fun h => hkey (List.length_eq_zero.mp h)
  have hm : MaybeEncrypted fname = true := (MaybeEncrypted_eq_true_iff fname).mpr hname
  have hl : (content.take 4).length = 4 := by rw [List.length_take]; omega
  have hload : loadNum host (storeAt buf (content.take 4)) = kMagicNum
      ↔ content.take 4 = storeNum host kMagicNum := by
    rw [loadNum_eq_iff host _ (by simp [storeAt, hl])]
    have := storeAt_take buf (content.take 4)
    rw [hl] at this
    rw [this]
  by_cases hc : content.take 4 = storeNum host kMagicNum
  · have := hload.mpr hc
    rw [hc] at this
    simp [McneWrapper.NewSequentialFile, memEnv, kMagicNumSize, Status.ok, hlen, hm, hfile,
      this, hc, Nat.min_eq_left h4, McneSequentialFile.construct]
  · have : ¬ loadNum host (storeAt buf (content.take 4)) = kMagicNum := fun h => hc (hload.mp h)
    simp [McneWrapper.NewSequentialFile, memEnv, kMagicNumSize, Status.ok, hlen, hm, hfile,
      this, hc, hl]

/-- The header check of `NewRandomAccessFile` on the reference environment, for a file of at
least four bytes. -/
theorem memEnv_NewRandomAccessFile_check (host : ByteOrder) (key : List Byte)
    (fname : String) (buf content : List Byte) (w : MemWorld) (hkey : key ≠ [])
    (hname : ¬ endsWithLog fname) (hfile : w.files fname = some content)
    (h4 : 4 ≤ content.length) :
    McneWrapper.NewRandomAccessFile memEnv host key fname buf w
      = if content.take 4 = storeNum host kMagicNum then
          ⟨Status.OK, some (.mcne ⟨fname, key, true⟩), w.acquire⟩
        else ⟨Status.Corruption "corrupted encrypted file" "", none, w.acquire.release⟩ := by
  have hlen : key.length ≠ 0 := fun h => hkey (List.length_eq_zero.mp h)
  have hm : MaybeEncrypted fname = true := (MaybeEncrypted_eq_true_iff fname).mpr hname
  have hl : (content.take 4).length = 4 := by rw [List.length_take]; omega
  have hload : loadNum host (storeAt buf (content.take 4)) = kMagicNum
      ↔ content.take 4 = storeNum host kMagicNum := by
    rw [loadNum_eq_iff host _ (by simp [storeAt, hl])]
    have := storeAt_take buf (content.take 4)
    rw [hl] at this
    rw [this]
  by_cases hc : content.take 4 = storeNum host kMagicNum
  · have := hload.mpr hc
    rw [hc] at this
    simp [McneWrapper.NewRandomAccessFile, memEnv, kMagicNumSize, Status.ok, hlen, hm, hfile,
      this, hc, McneRandomAccessFile.construct]
  · have : ¬ loadNum host (storeAt buf (content.take 4)) = kMagicNum := fun h => hc (hload.mp h)
    simp [McneWrapper.NewRandomAccessFile, memEnv, kMagicNumSize, Status.ok, hlen, hm, hfile,
      this, hc]

/-- The content of a file written through the factory under a non-empty key: the stored
marker in cleartext, then the keystream encryption of the appended bytes. -/
theorem writtenFile_eq (host : ByteOrder) (key : List Byte) (fname : String)
    (ds : List (List Byte)) (w : MemWorld) (hkey : key ≠ []) (hname : ¬ endsWithLog fname)
    (hsize : ds.flatten.length < kWordModulus) :
    writtenFile host key fname ds w
      = some (storeNum host kMagicNum ++ xorStream key 0 ds.flatten) := by
  obtain ⟨wfile, w1, happend, hfile⟩ := memEnv_appendAll key fname hkey ds 0
    (storeNum host kMagicNum) (((w.put fname []).acquire).put fname (storeNum host kMagicNum))
    (by simp) (by omega)
  simp only [writtenFile, memEnv_NewWritableFile host key fname w hkey hname, happend, hfile]

theorem memEnv_open_writable (fname : String) (w : MemWorld) :
    memEnv.NewWritableFile fname w = (Status.OK, fname, (w.put fname []).acquire) := rfl

theorem memEnv_open_sequential (fname : String) (w : MemWorld) (c : List Byte)
    (hfile : w.files fname = some c) :
    memEnv.NewSequentialFile fname w = (Status.OK, ⟨fname, 0⟩, w.acquire) := by
  simp [memEnv, hfile]

/-- With the empty key or an ineligible file name each factory call is plain delegation. -/
theorem McneWrapper_delegates {W HS HR HW : Type} (env : Env W HS HR HW)
    (host : ByteOrder) (key : List Byte) (fname : String) (buf : List Byte) (w : W)
    (h : key.length = 0 ∨ MaybeEncrypted fname = false) :
    McneWrapper.NewSequentialFile env host key fname buf w
        = delegate SequentialFile.raw (env.NewSequentialFile fname w)
    ∧ McneWrapper.NewRandomAccessFile env host key fname buf w
        = delegate RandomAccessFile.raw (env.NewRandomAccessFile fname w)
    ∧ McneWrapper.NewWritableFile env host key fname w
        = delegate WritableFile.raw (env.NewWritableFile fname w) := by
  have hcond : (decide (key.length = 0) || !MaybeEncrypted fname) = true := by
    rcases h with h | h <;> simp [h]
  refine ⟨?_, ?_, ?_⟩
  · simp only [McneWrapper.NewSequentialFile, delegate, hcond]
    cases h : (env.NewSequentialFile fname w).1 <;> simp [Status.ok]
  · simp only [McneWrapper.NewRandomAccessFile, delegate, hcond]
    cases h : (env.NewRandomAccessFile fname w).1 <;> simp [Status.ok]
  · simp only [McneWrapper.NewWritableFile, delegate, hcond]
    cases h : (env.NewWritableFile fname w).1 <;> simp [Status.ok]

/-- Appending through the underlying handle itself on the reference environment extends the
file by exactly the bytes supplied. -/
theorem memEnv_appendAll_raw (fname : String) :
    ∀ (ds : List (List Byte)) (c : List Byte) (w : MemWorld), w.files fname = some c →
      ∃ file w1, WritableFile.appendAll memEnv (.raw fname) ds w
          = some (ds.map (fun _ => Status.OK), file, w1)
        ∧ w1.files fname = some (c ++ ds.flatten) := by
  intro ds
  induction ds with
  | nil =>
    intro c w hfile
    exact ⟨_, _, rfl, by simpa using hfile⟩
  | cons d ds ih =>
    intro c w hfile
    obtain ⟨file, w1, hrun, hfiles⟩ := ih (c ++ d) (w.put fname (c ++ d)) (by simp)
    refine ⟨file, w1, ?_, ?_⟩
    · simp only [WritableFile.appendAll, WritableFile.Append, memEnv, hfile]
      simp only [memEnv] at hrun
      simp only [hrun, List.map_cons]
    · rw [hfiles, List.flatten_cons, List.append_assoc]

/-- The plaintext left after a read of `n` bytes at position `q`. -/
theorem drop_add_length_take (plain : List Byte) (q n : Nat) (hq : q ≤ plain.length) :
    plain.drop (q + ((plain.drop q).take n).length) = (plain.drop q).drop n := by
  rw [List.drop_drop, List.length_take, List.length_drop]
  by_cases hn : n ≤ plain.length - q
  · rw [Nat.min_eq_left hn]
  · rw [Nat.min_eq_right (by omega), List.drop_of_length_le (by omega),
      List.drop_of_length_le (by omega)]

/-- Successive reads through the underlying handle itself on the reference environment
deliver the file's bytes piece by piece. -/
theorem memEnv_readAll_raw (fname : String) (plain : List Byte) (w : MemWorld)
    (hfile : w.files fname = some plain) :
    ∀ (reqs : List (Nat × List Byte)) (q : Nat), q ≤ plain.length →
      ∃ file w1, SequentialFile.readAll memEnv (.raw ⟨fname, q⟩) reqs w
        = some ((chunks (plain.drop q) (reqs.map Prod.fst)).map (fun c => (Status.OK, c)),
            file, w1) := by
  intro reqs
  induction reqs with
  | nil => intro q _; exact ⟨_, _, rfl⟩
  | cons req reqs ih =>
    obtain ⟨n, scratch⟩ := req
    intro q hq
    have hq1 : q + ((plain.drop q).take n).length ≤ plain.length := by
      rw [List.length_take, List.length_drop]; omega
    obtain ⟨file, w1, hrun⟩ := ih (q + ((plain.drop q).take n).length) hq1
    refine ⟨file, w1, ?_⟩
    simp only [memEnv] at hrun
    simp only [SequentialFile.readAll, SequentialFile.Read, memEnv, hfile, hrun, Slice.data,
      storeAt_take, List.map_cons, chunks, drop_add_length_take plain q n hq]

/-! ## The decorators over any underlying environment -/

/-- Byte `i` of the keystream encryption. -/
theorem xorStream_getD (key : List Byte) (p : Nat) (l : List Byte) (i : Nat)
    (hi : i < l.length) :
    (xorStream key p l).getD i 0 = l.getD i 0 ^^^ key.getD ((p + i) % key.length) 0 := by
  induction l generalizing p i with
  | nil => exact absurd hi (Nat.not_lt_zero _)
  | cons b bs ih =>
    cases i with
    | zero => simp [xorStream]
    | succ i =>
      have h := ih (p + 1) i (Nat.lt_of_succ_lt_succ hi)
      have e : p + 1 + i = p + (i + 1) := by omega
      rw [e] at h
      simpa [xorStream] using h

/-- The wrapped key index of the loop is the phase modulo the key length. -/
theorem PerformXorOn.jAt_eq (key : List Byte) (hkey : 0 < key.length) (p i : Nat) :
    PerformXorOn.jAt key p i = (p + i) % key.length := by
  induction i with
  | zero =>
    have h : ¬ (p % key.length ≥ key.length) := Nat.not_le.mpr (Nat.mod_lt _ hkey)
    simp only [PerformXorOn.jAt, h, if_false, Nat.add_zero]
  | succ i ih =>
    simp only [PerformXorOn.jAt, ih]
    split
    · rw [Nat.add_mod, Nat.mod_mod, ← Nat.add_mod, Nat.add_assoc]
    · rename_i h
      have hlt : (p + i) % key.length + 1 < key.length := Nat.not_le.mp h
      rw [← Nat.add_assoc, Nat.add_mod (p + i) 1, Nat.mod_eq_of_lt (a := ((p + i) % key.length + 1 % key.length))]
      · by_cases h1 : key.length = 1
        · omega
        · rw [Nat.mod_eq_of_lt (by omega : 1 < key.length)]
      · by_cases h1 : key.length = 1
        · omega
        · rw [Nat.mod_eq_of_lt (by omega : 1 < key.length)]; exact hlt

/-- A successful underlying read under an encrypting sequential decorator: the first
`result.size()` bytes of the scratch buffer are XORed with the keystream at the running
offset, `*result` is left as the underlying read set it, and the offset advances by the
requested length. -/
theorem McneSequentialFile_Read_of_ok {W HS HR HW : Type} (env : Env W HS HR HW) (pFile : HS)
    (key : List Byte) (o n : Nat) (scratch : List Byte) (w : W) (hkey : key ≠ [])
    (hok : (env.seqRead pFile n scratch w).1.s.ok = true) :
    McneSequentialFile.Read env ⟨pFile, key, o, true⟩ n scratch w
      = some (⟨(env.seqRead pFile n scratch w).1.s, (env.seqRead pFile n scratch w).1.result,
            xorStream key o ((env.seqRead pFile n scratch w).1.scratch.take
                (env.seqRead pFile n scratch w).1.result.size)
              ++ (env.seqRead pFile n scratch w).1.scratch.drop
                (env.seqRead pFile n scratch w).1.result.size⟩,
          ⟨(env.seqRead pFile n scratch w).2.1, key, (o + n) % kWordModulus, true⟩,
          (env.seqRead pFile n scratch w).2.2) := by
  simp only [McneSequentialFile.Read, hok, Bool.not_true, Bool.or_self, Bool.false_eq_true,
    if_false, PerformXorOn_eq _ _ _ _ hkey]

/-- A failed underlying read, or a decorator that does not encrypt: the outcome of the
underlying read is handed on as it is and the running offset stays. -/
theorem McneSequentialFile_Read_of_not {W HS HR HW : Type} (env : Env W HS HR HW) (pFile : HS)
    (key : List Byte) (o n : Nat) (e : Bool) (scratch : List Byte) (w : W)
    (h : e = false ∨ (env.seqRead pFile n scratch w).1.s.ok = false) :
    McneSequentialFile.Read env ⟨pFile, key, o, e⟩ n scratch w
      = some ((env.seqRead pFile n scratch w).1,
          ⟨(env.seqRead pFile n scratch w).2.1, key, o, e⟩,
          (env.seqRead pFile n scratch w).2.2) := by
  rcases h with h | h <;> simp [McneSequentialFile.Read, h]

/-- The outcome of `Skip`: the underlying status, and the offset advanced on success only. -/
theorem McneSequentialFile_Skip_eq {W HS HR HW : Type} (env : Env W HS HR HW) (pFile : HS)
    (key : List Byte) (o n : Nat) (e : Bool) (w : W) :
    McneSequentialFile.Skip env ⟨pFile, key, o, e⟩ n w
      = ((env.seqSkip pFile n w).1,
          ⟨(env.seqSkip pFile n w).2.1, key,
            if (env.seqSkip pFile n w).1.ok then (o + n) % kWordModulus else o, e⟩,
          (env.seqSkip pFile n w).2.2) := by
  cases h : (env.seqSkip pFile n w).1.ok <;> simp [McneSequentialFile.Skip, h]

/-- A successful underlying read under an encrypting random-access decorator. -/
theorem McneRandomAccessFile_Read_of_ok {W HS HR HW : Type} (env : Env W HS HR HW)
    (pFile : HR) (key : List Byte) (o n : Nat) (scratch : List Byte) (w : W) (hkey : key ≠ [])
    (hok : (env.raRead pFile ((kMagicNumSize + o) % kWordModulus) n scratch w).1.s.ok = true) :
    McneRandomAccessFile.Read env ⟨pFile, key, true⟩ o n scratch w
      = some (⟨(env.raRead pFile ((kMagicNumSize + o) % kWordModulus) n scratch w).1.s,
            (env.raRead pFile ((kMagicNumSize + o) % kWordModulus) n scratch w).1.result,
            xorStream key o
                ((env.raRead pFile ((kMagicNumSize + o) % kWordModulus) n scratch w).1.scratch.take
                  (env.raRead pFile ((kMagicNumSize + o) % kWordModulus) n scratch w).1.result.size)
              ++ (env.raRead pFile ((kMagicNumSize + o) % kWordModulus) n scratch w).1.scratch.drop
                  (env.raRead pFile ((kMagicNumSize + o) % kWordModulus) n scratch w).1.result.size⟩,
          (env.raRead pFile ((kMagicNumSize + o) % kWordModulus) n scratch w).2) := by
  simp only [McneRandomAccessFile.Read, hok, Bool.not_true, Bool.or_self, Bool.false_eq_true,
    if_false, PerformXorOn_eq _ _ _ _ hkey]

/-- A failed underlying read, or a random-access decorator that does not encrypt. -/
theorem McneRandomAccessFile_Read_of_not {W HS HR HW : Type} (env : Env W HS HR HW)
    (pFile : HR) (key : List Byte) (o n : Nat) (e : Bool) (scratch : List Byte) (w : W)
    (h : e = false
      ∨ (env.raRead pFile ((kMagicNumSize + o) % kWordModulus) n scratch w).1.s.ok = false) :
    McneRandomAccessFile.Read env ⟨pFile, key, e⟩ o n scratch w
      = some (env.raRead pFile ((kMagicNumSize + o) % kWordModulus) n scratch w) := by
  rcases h with h | h <;> simp [McneRandomAccessFile.Read, h]

/-- The outcome of `Append` under an encrypting write decorator: the underlying handle gets
the keystream encryption of the data at the running offset, its status is returned, and the
offset advances by the length of the data whatever that status is. -/
theorem McneWritableFile_Append_eq {W HS HR HW : Type} (env : Env W HS HR HW) (pFile : HW)
    (key : List Byte) (o : Nat) (d : List Byte) (w : W) (hkey : key ≠ []) :
    McneWritableFile.Append env ⟨pFile, key, o, true⟩ d w
      = some ((env.wAppend pFile (xorStream key o d) w).1,
          ⟨(env.wAppend pFile (xorStream key o d) w).2.1, key,
            (o + d.length) % kWordModulus, true⟩,
          (env.wAppend pFile (xorStream key o d) w).2.2) := by
  simp [McneWritableFile.Append, PerformXorOn_eq _ _ _ _ hkey, Slice.size, Slice.data,
    xorStream_take]

/-- The outcome of `Append` under a write decorator that does not encrypt. -/
theorem McneWritableFile_Append_plain {W HS HR HW : Type} (env : Env W HS HR HW) (pFile : HW)
    (key : List Byte) (o : Nat) (d : List Byte) (w : W) :
    McneWritableFile.Append env ⟨pFile, key, o, false⟩ d w
      = some ((env.wAppend pFile d w).1,
          ⟨(env.wAppend pFile d w).2.1, key, (o + d.length) % kWordModulus, false⟩,
          (env.wAppend pFile d w).2.2) := by
  simp [McneWritableFile.Append, Slice.data]

theorem requestedByOk_cons (out : SeqOutcome) (outs : List SeqOutcome) :
    requestedByOk (out :: outs)
      = (if out.s.ok then out.requested else 0) + requestedByOk outs := by
  cases h : out.s.ok <;> simp [requestedByOk, List.filter_cons, h]

theorem consumedTotal_cons (out : SeqOutcome) (outs : List SeqOutcome) :
    consumedTotal (out :: outs) = out.consumed + consumedTotal outs := by
  simp [consumedTotal]

/-- When every successful call consumed what it requested and failed calls consumed nothing,
the bytes consumed are the counts requested by the successful calls. -/
theorem consumedTotal_eq_requestedByOk (outs : List SeqOutcome)
    (hok : ∀ out ∈ outs, out.s.ok = true → out.consumed = out.requested)
    (hfail : ∀ out ∈ outs, out.s.ok = false → out.consumed = 0) :
    consumedTotal outs = requestedByOk outs := by
  induction outs with
  | nil => rfl
  | cons out outs ih =>
    rw [consumedTotal_cons, requestedByOk_cons,
      ih (fun x hx => hok x (List.mem_cons_of_mem _ hx))
        (fun x hx => hfail x (List.mem_cons_of_mem _ hx))]
    cases h : out.s.ok
    · simp [hfail out (List.mem_cons_self _ _) h]
    · simp [hok out (List.mem_cons_self _ _) h]

/-- Any sequence of reads and skips on an encrypting sequential decorator with a non-empty
key is defined; afterwards the running offset is the starting offset plus the counts requested
by the calls that succeeded, modulo the word size. -/
theorem McneSequentialFile_run_offset {W HS HR HW : Type} (env : Env W HS HR HW)
    (key : List Byte) (hkey : key ≠ []) :
    ∀ (ops : List SeqOp) (pFile : HS) (o : Nat) (w : W), o < kWordModulus →
      ∃ outs file w1, McneSequentialFile.run env ⟨pFile, key, o, true⟩ ops w
          = some (outs, file, w1)
        ∧ file.offset = (o + requestedByOk outs) % kWordModulus
        ∧ (∀ out ∈ outs, out.s.ok = false → out.consumed = 0) := by
  have hpos : 0 < kWordModulus := by decide
  intro ops
  induction ops with
  | nil =>
    intro pFile o w ho
    exact ⟨[], _, w, rfl, by simp [requestedByOk, Nat.mod_eq_of_lt ho], by simp⟩
  | cons op ops ih =>
    intro pFile o w ho
    cases op with
    | read n scratch =>
      cases hok : (env.seqRead pFile n scratch w).1.s.ok
      · obtain ⟨outs, file, w1, hrun, hoff, hfail⟩ :=
          ih (env.seqRead pFile n scratch w).2.1 o (env.seqRead pFile n scratch w).2.2 ho
        refine ⟨(⟨(env.seqRead pFile n scratch w).1.s, n,
          if (env.seqRead pFile n scratch w).1.s.ok then
            (env.seqRead pFile n scratch w).1.result.size else 0⟩ :: outs), file, w1, ?_, ?_, ?_⟩
        · simp only [McneSequentialFile.run,
            McneSequentialFile_Read_of_not env pFile key o n true scratch w (Or.inr hok), hrun]
        · rw [hoff, requestedByOk_cons]; simp [hok]
        · intro out hout hs
          rcases List.mem_cons.mp hout with h | h
          · subst h; simp [hok]
          · exact hfail out h hs
      · obtain ⟨outs, file, w1, hrun, hoff, hfail⟩ :=
          ih (env.seqRead pFile n scratch w).2.1 ((o + n) % kWordModulus)
            (env.seqRead pFile n scratch w).2.2 (Nat.mod_lt _ hpos)
        refine ⟨(⟨(env.seqRead pFile n scratch w).1.s, n,
          if (env.seqRead pFile n scratch w).1.s.ok then
            (env.seqRead pFile n scratch w).1.result.size else 0⟩ :: outs), file, w1, ?_, ?_, ?_⟩
        · simp only [McneSequentialFile.run,
            McneSequentialFile_Read_of_ok env pFile key o n scratch w hkey hok, hrun]
        · rw [hoff, requestedByOk_cons]
          simp only [hok, if_true, Nat.mod_add_mod, Nat.add_assoc]
        · intro out hout hs
          rcases List.mem_cons.mp hout with h | h
          · subst h; simp [hok] at hs
          · exact hfail out h hs
    | skip n =>
      cases hok : (env.seqSkip pFile n w).1.ok
      · obtain ⟨outs, file, w1, hrun, hoff, hfail⟩ :=
          ih (env.seqSkip pFile n w).2.1 o (env.seqSkip pFile n w).2.2 ho
        refine ⟨(⟨(env.seqSkip pFile n w).1, n, if (env.seqSkip pFile n w).1.ok then n else 0⟩ :: outs), file, w1, ?_, ?_, ?_⟩
        · simp only [McneSequentialFile.run, McneSequentialFile_Skip_eq, hok,
            Bool.false_eq_true, if_false, hrun]
        · rw [hoff, requestedByOk_cons]; simp [hok]
        · intro out hout hs
          rcases List.mem_cons.mp hout with h | h
          · subst h; simp [hok]
          · exact hfail out h hs
      · obtain ⟨outs, file, w1, hrun, hoff, hfail⟩ :=
          ih (env.seqSkip pFile n w).2.1 ((o + n) % kWordModulus)
            (env.seqSkip pFile n w).2.2 (Nat.mod_lt _ hpos)
        refine ⟨(⟨(env.seqSkip pFile n w).1, n, if (env.seqSkip pFile n w).1.ok then n else 0⟩ :: outs), file, w1, ?_, ?_, ?_⟩
        · simp only [McneSequentialFile.run, McneSequentialFile_Skip_eq, hok, if_true, hrun]
        · rw [hoff, requestedByOk_cons]
          simp only [hok, if_true, Nat.mod_add_mod, Nat.add_assoc]
        · intro out hout hs
          rcases List.mem_cons.mp hout with h | h
          · subst h; simp [hok] at hs
          · exact hfail out h hs

/-- Any sequence of reads and skips on a sequential decorator that does not encrypt is
defined. -/
theorem McneSequentialFile_run_plain {W HS HR HW : Type} (env : Env W HS HR HW)
    (key : List Byte) :
    ∀ (ops : List SeqOp) (pFile : HS) (o : Nat) (w : W),
      (McneSequentialFile.run env ⟨pFile, key, o, false⟩ ops w).isSome = true := by
  intro ops
  induction ops with
  | nil => intro pFile o w; rfl
  | cons op ops ih =>
    intro pFile o w
    cases op with
    | read n scratch =>
      have h := ih (env.seqRead pFile n scratch w).2.1 o (env.seqRead pFile n scratch w).2.2
      obtain ⟨x, hx⟩ := Option.isSome_iff_exists.mp h
      simp only [McneSequentialFile.run,
        McneSequentialFile_Read_of_not env pFile key o n false scratch w (Or.inl rfl), hx,
        Option.isSome_some]
    | skip n =>
      have h := ih (env.seqSkip pFile n w).2.1
        (if (env.seqSkip pFile n w).1.ok then (o + n) % kWordModulus else o)
        (env.seqSkip pFile n w).2.2
      obtain ⟨x, hx⟩ := Option.isSome_iff_exists.mp h
      simp only [McneSequentialFile.run, McneSequentialFile_Skip_eq, hx, Option.isSome_some]

/-- Any sequence of appends on an encrypting write decorator with a non-empty key is
defined; afterwards the running offset is the starting offset plus the lengths of all data
passed to `Append`, modulo the word size, whatever the underlying statuses were. -/
theorem McneWritableFile_run_offset {W HS HR HW : Type} (env : Env W HS HR HW)
    (key : List Byte) (e : Bool) (hkey : e = true → key ≠ []) :
    ∀ (ds : List (List Byte)) (pFile : HW) (o : Nat) (w : W), o < kWordModulus →
      ∃ ss file w1, McneWritableFile.run env ⟨pFile, key, o, e⟩ ds w = some (ss, file, w1)
        ∧ file.offset = (o + ds.flatten.length) % kWordModulus := by
  have hpos : 0 < kWordModulus := by decide
  intro ds
  induction ds with
  | nil =>
    intro pFile o w ho
    exact ⟨[], _, w, rfl, by simp [Nat.mod_eq_of_lt ho]⟩
  | cons d ds ih =>
    intro pFile o w ho
    cases e with
    | false =>
      obtain ⟨ss, file, w1, hrun, hoff⟩ := ih (env.wAppend pFile d w).2.1
        ((o + d.length) % kWordModulus) (env.wAppend pFile d w).2.2 (Nat.mod_lt _ hpos)
      refine ⟨(env.wAppend pFile d w).1 :: ss, file, w1, ?_, ?_⟩
      · simp only [McneWritableFile.run, McneWritableFile_Append_plain, hrun]
      · rw [hoff, List.flatten_cons, List.length_append, Nat.mod_add_mod, Nat.add_assoc]
    | true =>
      have hk := hkey rfl
      obtain ⟨ss, file, w1, hrun, hoff⟩ :=
        ih (env.wAppend pFile (xorStream key o d) w).2.1
          ((o + d.length) % kWordModulus) (env.wAppend pFile (xorStream key o d) w).2.2
          (Nat.mod_lt _ hpos)
      refine ⟨(env.wAppend pFile (xorStream key o d) w).1 :: ss, file, w1, ?_, ?_⟩
      · simp only [McneWritableFile.run, McneWritableFile_Append_eq env pFile key o d w hk,
          hrun]
      · rw [hoff, List.flatten_cons, List.length_append, Nat.mod_add_mod, Nat.add_assoc]

/-- The byte strings that successive appends through an encrypting write decorator hand to
the underlying handle concatenate to the keystream encryption of the concatenated data. -/
theorem McneWritableFile_run_log {W HS HR HW : Type} (env : Env W HS HR HW)
    (key : List Byte) (hkey : key ≠ []) :
    ∀ (ds : List (List Byte)) (pFile : HW) (o : Nat) (w : W) (log : List (List Byte)),
      o + ds.flatten.length < kWordModulus →
      ∃ ss file w1 log1,
        McneWritableFile.run (logAppends env) ⟨pFile, key, o, true⟩ ds (w, log)
          = some (ss, file, (w1, log1))
        ∧ log1.flatten = log.flatten ++ xorStream key o ds.flatten := by
  intro ds
  induction ds with
  | nil =>
    intro pFile o w log _
    exact ⟨[], _, w, log, rfl, by simp⟩
  | cons d ds ih =>
    intro pFile o w log hfit
    rw [List.flatten_cons, List.length_append] at hfit
    have hmod : (o + d.length) % kWordModulus = o + d.length := Nat.mod_eq_of_lt (by omega)
    have hstep : (logAppends env).wAppend pFile (xorStream key o d) (w, log)
        = ((env.wAppend pFile (xorStream key o d) w).1,
            (env.wAppend pFile (xorStream key o d) w).2.1,
            ((env.wAppend pFile (xorStream key o d) w).2.2, log ++ [xorStream key o d])) := rfl
    obtain ⟨ss, file, w1, log1, hrun, hlog⟩ :=
      ih (env.wAppend pFile (xorStream key o d) w).2.1 (o + d.length)
        (env.wAppend pFile (xorStream key o d) w).2.2 (log ++ [xorStream key o d]) (by omega)
    refine ⟨(env.wAppend pFile (xorStream key o d) w).1 :: ss, file, w1, log1, ?_, ?_⟩
    · simp only [McneWritableFile.run,
        McneWritableFile_Append_eq (logAppends env) pFile key o d (w, log) hkey, hstep, hmod,
        hrun]
    · rw [hlog, List.flatten_cons, xorStream_append]
      simp

/-- Any sequence of offset reads on a random-access decorator whose `isEncrypted` flag is set
only with a non-empty key is defined. -/
theorem RandomAccessFile_readAll_defined {W HS HR HW : Type} (env : Env W HS HR HW)
    (pFile : HR) (key : List Byte) (e : Bool) (hkey : e = true → key ≠ []) :
    ∀ (reqs : List (Nat × Nat × List Byte)) (w : W),
      (RandomAccessFile.readAll env (.mcne ⟨pFile, key, e⟩) reqs w).isSome = true := by
  intro reqs
  induction reqs with
  | nil => intro w; rfl
  | cons req reqs ih =>
    obtain ⟨o, n, scratch⟩ := req
    intro w
    have hread : ∃ r, McneRandomAccessFile.Read env ⟨pFile, key, e⟩ o n scratch w = some r := by
      cases e with
      | false =>
        exact ⟨_, McneRandomAccessFile_Read_of_not env pFile key o n false scratch w
          (Or.inl rfl)⟩
      | true =>
        cases hok : (env.raRead pFile ((kMagicNumSize + o) % kWordModulus) n scratch w).1.s.ok
        · exact ⟨_, McneRandomAccessFile_Read_of_not env pFile key o n true scratch w
            (Or.inr hok)⟩
        · exact ⟨_, McneRandomAccessFile_Read_of_ok env pFile key o n scratch w (hkey rfl)
            hok⟩
    obtain ⟨r, hr⟩ := hread
    obtain ⟨x, hx⟩ := Option.isSome_iff_exists.mp (ih r.2)
    simp only [RandomAccessFile.readAll, RandomAccessFile.Read, hr, hx, Option.isSome_some]

theorem McneSequentialFile_construct_eq {HS : Type} (pFile : HS) (key : List Byte) :
    McneSequentialFile.construct pFile key = ⟨pFile, key, 0, !decide (key.length = 0)⟩ := by
  by_cases h : key.length = 0 <;> simp [McneSequentialFile.construct, h]

theorem McneRandomAccessFile_construct_eq {HR : Type} (pFile : HR) (key : List Byte) :
    McneRandomAccessFile.construct pFile key = ⟨pFile, key, !decide (key.length = 0)⟩ := by
  by_cases h : key.length = 0 <;> simp [McneRandomAccessFile.construct, h]

theorem McneWritableFile_construct_eq {HW : Type} (pFile : HW) (key : List Byte) :
    McneWritableFile.construct pFile key = ⟨pFile, key, 0, !decide (key.length = 0)⟩ := by
  by_cases h : key.length = 0 <;> simp [McneWritableFile.construct, h]

/-- The flag a constructor computes is set only with a non-empty key. -/
theorem flag_implies_key (key : List Byte) :
    (!decide (key.length = 0)) = true → key ≠ [] := by
  intro h hk
  simp [hk] at h

/-- A list is the list of its entries. -/
theorem list_eq_map_range_getD (l : List Byte) :
    l = (List.range l.length).map (fun i => l.getD i 0) := by
  apply List.ext_getElem
  · simp
  · intro i h1 h2
    simp [List.getElem?_eq_getElem h1]

/-- Entry `i` of the scratch buffer after `PerformXorOn`, as the keystream equation gives
it. -/
theorem xorStream_take_append_drop_getD (key scratch : List Byte) (p size i : Nat)
    (hi : i < scratch.length) :
    (xorStream key p (scratch.take size) ++ scratch.drop size).getD i 0
      = if i < size then scratch.getD i 0 ^^^ key.getD ((p + i) % key.length) 0
        else scratch.getD i 0 := by
  by_cases h : i < size
  · have hlen : i < (scratch.take size).length := by
      rw [List.length_take]; omega
    rw [if_pos h, List.getD_append _ _ _ _ (by simpa using hlen), xorStream_getD _ _ _ _ hlen]
    congr 1
    rw [List.getD_eq_getElem _ _ hlen, List.getD_eq_getElem _ _ hi, List.getElem_take]
  · have hlen : (xorStream key p (scratch.take size)).length = size := by
      rw [xorStream_length, List.length_take]; omega
    rw [if_neg h, List.getD_append_right _ _ _ _ (by omega), hlen]
    have hd : i - size < (scratch.drop size).length := by
      rw [List.length_drop]; omega
    rw [List.getD_eq_getElem _ _ hd, List.getD_eq_getElem _ _ hi, List.getElem_drop]
    congr 1
    omega

/-- The `int` member equals the marker exactly when the first four bytes of the buffer are
the stored marker, whatever the length of the buffer. -/
theorem loadNum_eq_iff_take (host : ByteOrder) (buf : List Byte) :
    loadNum host buf = kMagicNum ↔ buf.take 4 = storeNum host kMagicNum := by
  by_cases h : 4 ≤ buf.length
  · exact loadNum_eq_iff host buf h
  · have hne : buf.take 4 ≠ storeNum host kMagicNum := by
      intro e
      have := congrArg List.length e
      rw [storeNum_length, List.length_take] at this
      omega
    refine ⟨fun e => ?_, fun e => absurd e hne⟩
    exfalso
    match buf, h with
    | [], _ => cases host <;> simp [loadNum, kMagicNum] at e
    | [a], _ =>
      have ha := a.isLt
      cases host <;> simp [loadNum, kMagicNum] at e <;> omega
    | [a, b], _ =>
      have ha := a.isLt
      have hb := b.isLt
      cases host <;> simp [loadNum, kMagicNum] at e <;> omega
    | [a, b, c], _ =>
      have ha := a.isLt
      have hb := b.isLt
      have hc := c.isLt
      cases host <;> simp [loadNum, kMagicNum] at e <;> omega
    | _ :: _ :: _ :: _ :: _, h4 => exact absurd (by simp) h4

/-- The header check of `NewSequentialFile` over any underlying environment: when the
underlying open and header read succeed, the call returns OK if the first four bytes of the
buffer after the read are the stored marker, and Corruption otherwise. -/
theorem NewSequentialFile_status {W HS HR HW : Type} (env : Env W HS HR HW) (host : ByteOrder)
    (key : List Byte) (fname : String) (buf : List Byte) (w : W) (hkey : key ≠ [])
    (hname : ¬ endsWithLog fname) (hopen : (env.NewSequentialFile fname w).1.ok = true)
    (hread : (env.seqRead (env.NewSequentialFile fname w).2.1 kMagicNumSize buf
        (env.NewSequentialFile fname w).2.2).1.s.ok = true) :
    (McneWrapper.NewSequentialFile env host key fname buf w).s
      = if (env.seqRead (env.NewSequentialFile fname w).2.1 kMagicNumSize buf
            (env.NewSequentialFile fname w).2.2).1.scratch.take 4
          = storeNum host kMagicNum then Status.OK
        else Status.Corruption "corrupted encrypted file" "" := by
  have hlen : key.length ≠ 0 := fun h => hkey (List.length_eq_zero.mp h)
  have hm : MaybeEncrypted fname = true := (MaybeEncrypted_eq_true_iff fname).mpr hname
  simp only [McneWrapper.NewSequentialFile, hopen, hread, hlen, hm, Bool.not_true,
    Bool.false_eq_true, if_false, decide_False, Bool.or_self, ne_eq, loadNum_eq_iff_take]
  split <;> simp_all

/-- The header check of `NewRandomAccessFile` over any underlying environment. -/
theorem NewRandomAccessFile_status {W HS HR HW : Type} (env : Env W HS HR HW)
    (host : ByteOrder) (key : List Byte) (fname : String) (buf : List Byte) (w : W)
    (hkey : key ≠ []) (hname : ¬ endsWithLog fname)
    (hopen : (env.NewRandomAccessFile fname w).1.ok = true)
    (hread : (env.raRead (env.NewRandomAccessFile fname w).2.1 0 kMagicNumSize buf
        (env.NewRandomAccessFile fname w).2.2).1.s.ok = true) :
    (McneWrapper.NewRandomAccessFile env host key fname buf w).s
      = if (env.raRead (env.NewRandomAccessFile fname w).2.1 0 kMagicNumSize buf
            (env.NewRandomAccessFile fname w).2.2).1.scratch.take 4
          = storeNum host kMagicNum then Status.OK
        else Status.Corruption "corrupted encrypted file" "" := by
  have hlen : key.length ≠ 0 := fun h => hkey (List.length_eq_zero.mp h)
  have hm : MaybeEncrypted fname = true := (MaybeEncrypted_eq_true_iff fname).mpr hname
  simp only [McneWrapper.NewRandomAccessFile, hopen, hread, hlen, hm, Bool.not_true,
    Bool.false_eq_true, if_false, decide_False, Bool.or_self, ne_eq, loadNum_eq_iff_take]
  split <;> simp_all

/-- The one byte string `NewWritableFile` hands to the underlying `Append`, over any
underlying environment whose open succeeds, is the stored marker. -/
theorem NewWritableFile_log {W HS HR HW : Type} (env : Env W HS HR HW) (host : ByteOrder)
    (key : List Byte) (fname : String) (w : W) (hkey : key ≠ [])
    (hname : ¬ endsWithLog fname) (hopen : (env.NewWritableFile fname w).1.ok = true) :
    (McneWrapper.NewWritableFile (logAppends env) host key fname (w, [])).w.2
      = [storeNum host kMagicNum] := by
  have hlen : key.length ≠ 0 := fun h => hkey (List.length_eq_zero.mp h)
  have hm : MaybeEncrypted fname = true := (MaybeEncrypted_eq_true_iff fname).mpr hname
  have ht : (storeNum host kMagicNum).take kMagicNumSize = storeNum host kMagicNum := by
    cases host <;> rfl
  simp only [McneWrapper.NewWritableFile, logAppends, hopen, hlen, hm, ht, Bool.not_true,
    Bool.false_eq_true, if_false, decide_False, Bool.or_self]
  split <;> simp

/-- The sequential round trip on the reference environment, whose reads store their bytes in
the caller's scratch buffer. For every non-empty key, every file name not
ending in `.log` and every list of byte strings `ds` (of total length below the `size_t`
modulus), creating the file with `McneWrapper::NewWritableFile`, appending `ds` through the
returned file and reopening it with `McneWrapper::NewSequentialFile` on the reference
environment succeeds at every step, every append returns OK, and successive reads of any
requested lengths return OK and, in order, the next `min n remaining` bytes of the
concatenated plaintext. -/
theorem sequentialRoundTrip_plaintext (host : ByteOrder) (key : List Byte) (fname : String)
    (ds : List (List Byte)) (buf : List Byte) (reqs : List (Nat × List Byte)) (w : MemWorld)
    (hkey : key ≠ []) (hname : ¬ endsWithLog fname)
    (hsize : ds.flatten.length < kWordModulus) :
    sequentialRoundTrip host key fname ds buf reqs w
      = some ⟨Status.OK, ds.map (fun _ => Status.OK), Status.OK,
          (chunks ds.flatten (reqs.map Prod.fst)).map (fun c => (Status.OK, c))⟩ := by
  obtain ⟨wfile, w1, happend, hfile⟩ := memEnv_appendAll key fname hkey ds 0
    (storeNum host kMagicNum) (((w.put fname []).acquire).put fname (storeNum host kMagicNum))
    (by simp) (by omega)
  obtain ⟨sfile, w2, hread⟩ := memEnv_readAll key fname hkey (storeNum host kMagicNum)
    ds.flatten w1.acquire (by simpa using hfile) hsize reqs 0 0 (Nat.zero_le _) (Or.inl rfl)
  rw [storeNum_length] at hread
  simp only [sequentialRoundTrip, memEnv_NewWritableFile host key fname w hkey hname, happend,
    memEnv_NewSequentialFile host key fname buf _ w1 hkey hname hfile, hread, List.drop_zero]

/-- The spec's sequential example on the reference environment: key `secret`, one append of `hello world`, and the first read of
11 bytes returns `hello world`. -/
theorem sequentialRoundTrip_plaintext_witness :
    bytesOf "secret" ≠ [] ∧ ¬ endsWithLog "000005.ldb" ∧
    sequentialRoundTrip .little (bytesOf "secret") "000005.ldb" [bytesOf "hello world"]
        [0, 0, 0, 0] [(11, List.replicate 11 0)] MemWorld.empty
      = some ⟨Status.OK, [Status.OK], Status.OK, [(Status.OK, bytesOf "hello world")]⟩ :=
  ⟨by decide, by decide,
    sequentialRoundTrip_plaintext .little (bytesOf "secret") "000005.ldb" [bytesOf "hello world"]
      [0, 0, 0, 0] [(11, List.replicate 11 0)] MemWorld.empty (by decide) (by decide)
      (by decide)⟩

/-- The random-access round trip on the reference environment, whose reads store their
bytes in the caller's scratch buffer. For every non-empty key, every file written through
`McneWrapper::NewWritableFile` and `Append` with total plaintext `P` (the file's size below
the `uint64_t` modulus), and every list of offset reads `(o, n)` with `o + n ≤ |P|`, in any
order and with any repetition, each read on the file reopened with
`McneWrapper::NewRandomAccessFile` on the reference environment returns OK and exactly
`P[o .. o + n)`. -/
theorem randomAccessRoundTrip_plaintext (host : ByteOrder) (key : List Byte) (fname : String)
    (ds : List (List Byte)) (buf : List Byte) (reqs : List (Nat × Nat × List Byte))
    (w : MemWorld) (hkey : key ≠ []) (hname : ¬ endsWithLog fname)
    (hsize : kMagicNumSize + ds.flatten.length < kWordModulus)
    (hreqs : ∀ req ∈ reqs, req.1 + req.2.1 ≤ ds.flatten.length) :
    randomAccessRoundTrip host key fname ds buf reqs w
      = some ⟨Status.OK, ds.map (fun _ => Status.OK), Status.OK,
          reqs.map (fun req => (Status.OK, (ds.flatten.drop req.1).take req.2.1))⟩ := by
  obtain ⟨wfile, w1, happend, hfile⟩ := memEnv_appendAll key fname hkey ds 0
    (storeNum host kMagicNum) (((w.put fname []).acquire).put fname (storeNum host kMagicNum))
    (by simp) (by omega)
  obtain ⟨w2, hread⟩ := memEnv_raReadAll key fname hkey (storeNum host kMagicNum)
    ds.flatten w1.acquire (storeNum_length host kMagicNum) (by simpa using hfile) hsize reqs hreqs
  simp only [randomAccessRoundTrip, memEnv_NewWritableFile host key fname w hkey hname, happend,
    memEnv_NewRandomAccessFile host key fname buf _ w1 hkey hname hfile, hread]

/-- The spec's random-access example on the reference environment: key `secret`, plaintext `hello world`; the read of offset 6,
length 5 returns `world`, also when repeated after a read elsewhere. -/
theorem randomAccessRoundTrip_plaintext_witness :
    bytesOf "secret" ≠ [] ∧ ¬ endsWithLog "000005.ldb" ∧
    randomAccessRoundTrip .little (bytesOf "secret") "000005.ldb" [bytesOf "hello world"]
        [0, 0, 0, 0]
        [(6, 5, List.replicate 5 0), (0, 5, List.replicate 5 0), (6, 5, List.replicate 5 0)]
        MemWorld.empty
      = some ⟨Status.OK, [Status.OK], Status.OK,
          [(Status.OK, bytesOf "world"), (Status.OK, bytesOf "hello"),
            (Status.OK, bytesOf "world")]⟩ :=
  ⟨by decide, by decide,
    randomAccessRoundTrip_plaintext .little (bytesOf "secret") "000005.ldb"
      [bytesOf "hello world"] [0, 0, 0, 0]
      [(6, 5, List.replicate 5 0), (0, 5, List.replicate 5 0), (6, 5, List.replicate 5 0)]
      MemWorld.empty (by decide) (by decide) (by decide) (by decide)⟩

/-! ## Claims -/

/-- C1, at a failing input: key `secret` on a little-endian host, the file `000005.ldb`
created with `NewWritableFile`, one successful append of `hello world`, over an underlying
environment whose reads set `*result` to bytes in storage the handle owns and leave the
scratch buffer untouched. With the uninitialised header union holding zeros,
`NewSequentialFile` on that file fails with Corruption; with the union holding the marker it
succeeds, and the first `Read(11)` returns OK and the stored ciphertext, not `hello world`.
Over the reference environment, whose reads store their bytes in the scratch buffer, the same
calls return `hello world`. -/
theorem sequential_round_trip_breaks_on_handle_owned_reads :
    sequentialRoundTripOn mapEnv .little (bytesOf "secret") "000005.ldb"
        [bytesOf "hello world"] [0, 0, 0, 0] [(11, List.replicate 11 0)] MemWorld.empty
      = some ⟨Status.OK, [Status.OK], Status.Corruption "corrupted encrypted file" "", []⟩
    ∧ sequentialRoundTripOn mapEnv .little (bytesOf "secret") "000005.ldb"
        [bytesOf "hello world"] [0x80, 0x1D, 0x30, 0x01] [(11, List.replicate 11 0)]
        MemWorld.empty
      = some ⟨Status.OK, [Status.OK], Status.OK,
          [(Status.OK, xorStream (bytesOf "secret") 0 (bytesOf "hello world"))]⟩
    ∧ xorStream (bytesOf "secret") 0 (bytesOf "hello world") ≠ bytesOf "hello world"
    ∧ sequentialRoundTripOn memEnv .little (bytesOf "secret") "000005.ldb"
        [bytesOf "hello world"] [0, 0, 0, 0] [(11, List.replicate 11 0)] MemWorld.empty
      = some ⟨Status.OK, [Status.OK], Status.OK, [(Status.OK, bytesOf "hello world")]⟩ := by
  refine ⟨?_, ?_, ?_, ?_⟩ <;> decide

/-- C2, at a failing input: key `secret` on a little-endian host, the file `000005.ldb`
written through `NewWritableFile` and `Append` with plaintext `hello world`, over an
underlying environment whose reads set `*result` to bytes in storage the handle owns (a
memory-mapped file). With the uninitialised header union holding zeros,
`NewRandomAccessFile` on that file fails with Corruption; with the union holding the marker
it succeeds, and `Read(6, 5)` returns OK and the stored ciphertext, not `world`. Over the
reference environment the same calls return `world`. -/
theorem random_access_round_trip_breaks_on_handle_owned_reads :
    randomAccessRoundTripOn mapEnv .little (bytesOf "secret") "000005.ldb"
        [bytesOf "hello world"] [0, 0, 0, 0] [(6, 5, List.replicate 5 0)] MemWorld.empty
      = some ⟨Status.OK, [Status.OK], Status.Corruption "corrupted encrypted file" "", []⟩
    ∧ randomAccessRoundTripOn mapEnv .little (bytesOf "secret") "000005.ldb"
        [bytesOf "hello world"] [0x80, 0x1D, 0x30, 0x01] [(6, 5, List.replicate 5 0)]
        MemWorld.empty
      = some ⟨Status.OK, [Status.OK], Status.OK,
          [(Status.OK, xorStream (bytesOf "secret") 6 (bytesOf "world"))]⟩
    ∧ xorStream (bytesOf "secret") 6 (bytesOf "world") ≠ bytesOf "world"
    ∧ randomAccessRoundTripOn memEnv .little (bytesOf "secret") "000005.ldb"
        [bytesOf "hello world"] [0, 0, 0, 0] [(6, 5, List.replicate 5 0)] MemWorld.empty
      = some ⟨Status.OK, [Status.OK], Status.OK, [(Status.OK, bytesOf "world")]⟩ := by
  refine ⟨?_, ?_, ?_, ?_⟩ <;> decide


/-- C3: keystream round trip. For every key of length at least 1, every byte sequence `b`
and every starting phase `p`, `PerformXorOn` applied to `b` with `(key, p)` is defined, and
applied again to its result with the same `(key, p)` it is defined and yields `b` exactly. -/
theorem PerformXorOn_involutive (key b : List Byte) (p : Nat) (hkey : 1 ≤ key.length) :
    (PerformXorOn b (Slice.inScratch b.length) key p).bind
        (fun c => PerformXorOn c (Slice.inScratch b.length) key p)
      = some b := by
  have hne : key ≠ [] := fun h => by rw [h] at hkey; exact absurd hkey (by decide)
  have h : (xorStream key p b).take b.length = xorStream key p b :=
    List.take_of_length_le (by simp)
  have h2 : (xorStream key p b).drop b.length = [] := List.drop_of_length_le (by simp)
  rw [PerformXorOn_eq _ _ _ _ hne]
  simp only [Slice.size, List.take_length, List.drop_length, List.append_nil, Option.some_bind,
    PerformXorOn_eq _ _ _ _ hne, h, h2, xorStream_involutive]

/-- C3 at key `secret`, data `hello world`, phase 7. -/
theorem PerformXorOn_involutive_witness :
    1 ≤ (bytesOf "secret").length ∧
    (PerformXorOn (bytesOf "hello world") (Slice.inScratch (bytesOf "hello world").length)
          (bytesOf "secret") 7).bind
        (fun c => PerformXorOn c (Slice.inScratch (bytesOf "hello world").length)
          (bytesOf "secret") 7)
      = some (bytesOf "hello world") :=
  ⟨by decide, PerformXorOn_involutive (bytesOf "secret") (bytesOf "hello world") 7 (by decide)⟩

/-- C6: file-kind classifier. For every file name `s`, `MaybeEncrypted(s)` returns false if
and only if `s` ends with the 4-character suffix `.log`; in particular it returns true for
every name shorter than 4 characters. -/
theorem MaybeEncrypted_false_iff_endsWithLog (s : String) :
    (MaybeEncrypted s = false ↔ endsWithLog s) ∧ (s.length < 4 → MaybeEncrypted s = true) :=
  ⟨MaybeEncrypted_eq_false_iff s, MaybeEncrypted_of_length_lt s⟩

/-- C6, the spec's examples: `x.log` is not encrypted; `x.ldb`, `MANIFEST-000001` and `log`
are. -/
theorem MaybeEncrypted_false_iff_endsWithLog_witness :
    MaybeEncrypted "x.log" = false ∧ MaybeEncrypted "x.ldb" = true ∧
    MaybeEncrypted "MANIFEST-000001" = true ∧ MaybeEncrypted "log" = true :=
  ⟨(MaybeEncrypted_false_iff_endsWithLog "x.log").1.mpr (by decide),
    by
      have h := (MaybeEncrypted_false_iff_endsWithLog "x.ldb").1
      cases hm : MaybeEncrypted "x.ldb"
      · exact absurd (h.mp hm) (by decide)
      · rfl,
    by
      have h := (MaybeEncrypted_false_iff_endsWithLog "MANIFEST-000001").1
      cases hm : MaybeEncrypted "MANIFEST-000001"
      · exact absurd (h.mp hm) (by decide)
      · rfl,
    (MaybeEncrypted_false_iff_endsWithLog "log").2 (by decide)⟩

/-- C7: zero-key pass-through in the factory. When the key has length 0, for every
underlying environment and every file name, `NewSequentialFile`, `NewRandomAccessFile` and
`NewWritableFile` are plain delegation: they return the status of the underlying call, hand
back the underlying handle itself (no decorator) when it succeeded, and leave the world as
the underlying open left it (no header read, no marker write). -/
theorem McneWrapper_zero_key_delegates {W HS HR HW : Type} (env : Env W HS HR HW)
    (host : ByteOrder) (key : List Byte) (fname : String) (buf : List Byte) (w : W)
    (hkey : key.length = 0) :
    McneWrapper.NewSequentialFile env host key fname buf w
        = delegate SequentialFile.raw (env.NewSequentialFile fname w)
    ∧ McneWrapper.NewRandomAccessFile env host key fname buf w
        = delegate RandomAccessFile.raw (env.NewRandomAccessFile fname w)
    ∧ McneWrapper.NewWritableFile env host key fname w
        = delegate WritableFile.raw (env.NewWritableFile fname w) := by
  refine ⟨?_, ?_, ?_⟩
  · simp only [McneWrapper.NewSequentialFile, delegate, hkey]
    cases h : (env.NewSequentialFile fname w).1 <;> simp [Status.ok]
  · simp only [McneWrapper.NewRandomAccessFile, delegate, hkey]
    cases h : (env.NewRandomAccessFile fname w).1 <;> simp [Status.ok]
  · simp only [McneWrapper.NewWritableFile, delegate, hkey]
    cases h : (env.NewWritableFile fname w).1 <;> simp [Status.ok]

/-- C7 on the reference environment, with the empty key and an existing table file. -/
theorem McneWrapper_zero_key_delegates_witness :
    ([] : List Byte).length = 0 ∧
    McneWrapper.NewSequentialFile memEnv .little [] "000005.ldb" [0, 0, 0, 0]
        (MemWorld.empty.put "000005.ldb" (bytesOf "hello"))
        = delegate SequentialFile.raw
            (memEnv.NewSequentialFile "000005.ldb"
              (MemWorld.empty.put "000005.ldb" (bytesOf "hello")))
    ∧ McneWrapper.NewRandomAccessFile memEnv .little [] "000005.ldb" [0, 0, 0, 0]
        (MemWorld.empty.put "000005.ldb" (bytesOf "hello"))
        = delegate RandomAccessFile.raw
            (memEnv.NewRandomAccessFile "000005.ldb"
              (MemWorld.empty.put "000005.ldb" (bytesOf "hello")))
    ∧ McneWrapper.NewWritableFile memEnv .little [] "000005.ldb"
        (MemWorld.empty.put "000005.ldb" (bytesOf "hello"))
        = delegate WritableFile.raw
            (memEnv.NewWritableFile "000005.ldb"
              (MemWorld.empty.put "000005.ldb" (bytesOf "hello"))) :=
  ⟨rfl, McneWrapper_zero_key_delegates memEnv .little [] "000005.ldb" [0, 0, 0, 0]
    (MemWorld.empty.put "000005.ldb" (bytesOf "hello")) rfl⟩

/-- C9: append-to-existing is unsupported. For every underlying environment, every key and
every file name, `McneWrapper::NewAppendableFile` returns the NotSupported status (which is
not ok), stores no handle, and leaves the world untouched: the underlying environment is
never called. -/
theorem NewAppendableFile_not_supported {W HS HR HW : Type} (env : Env W HS HR HW)
    (key : List Byte) (fname : String) (w : W) :
    (McneWrapper.NewAppendableFile env key fname w).s
        = Status.NotSupported "NewAppendableFile" fname
    ∧ (McneWrapper.NewAppendableFile env key fname w).s.ok = false
    ∧ (McneWrapper.NewAppendableFile env key fname w).result = none
    ∧ (McneWrapper.NewAppendableFile env key fname w).w = w :=
  ⟨rfl, rfl, rfl, rfl⟩

/-- C8, as stated, fails for the random-access decorator: built with the empty key over a
file holding `0123456789`, `Read(0, 2)` delivers `45`, the bytes at physical offset 4, while
the same call made directly on the underlying handle delivers `01`. -/
theorem zero_key_McneRandomAccessFile_not_passthrough :
    (McneRandomAccessFile.Read memEnv (McneRandomAccessFile.construct "000005.ldb" []) 0 2
        [0, 0] (MemWorld.empty.put "000005.ldb" (bytesOf "0123456789"))).map Prod.fst
      = some ⟨Status.OK, Slice.inScratch 2, bytesOf "45"⟩
    ∧ (memEnv.raRead "000005.ldb" 0 2 [0, 0]
        (MemWorld.empty.put "000005.ldb" (bytesOf "0123456789"))).1
      = ⟨Status.OK, Slice.inScratch 2, bytesOf "01"⟩ := by
  constructor <;> decide

/-- C8, amended: a decorator constructed with a key of length 0 has `isEncrypted` false and
never XORs. `McneSequentialFile::Read` and `Skip` and `McneWritableFile::Append` forward the
caller's arguments unchanged and return exactly the status and bytes of the underlying call;
`McneRandomAccessFile::Read(offset, n)` forwards `n` and the scratch buffer unchanged but
reads at physical offset `offset + 4`, and returns exactly what the underlying read there
returns. -/
theorem zero_key_decorators_forward {W HS HR HW : Type} (env : Env W HS HR HW)
    (key : List Byte) (hkey : key.length = 0) :
    (∀ pFile : HS, McneSequentialFile.construct pFile key = ⟨pFile, key, 0, false⟩)
    ∧ (∀ (pFile : HS) (offset n : Nat) (scratch : List Byte) (w : W),
        McneSequentialFile.Read env ⟨pFile, key, offset, false⟩ n scratch w
          = some ((env.seqRead pFile n scratch w).1,
              ⟨(env.seqRead pFile n scratch w).2.1, key, offset, false⟩,
              (env.seqRead pFile n scratch w).2.2))
    ∧ (∀ (pFile : HS) (offset n : Nat) (w : W), ∃ offset1,
        McneSequentialFile.Skip env ⟨pFile, key, offset, false⟩ n w
          = ((env.seqSkip pFile n w).1, ⟨(env.seqSkip pFile n w).2.1, key, offset1, false⟩,
              (env.seqSkip pFile n w).2.2))
    ∧ (∀ pFile : HR, McneRandomAccessFile.construct pFile key = ⟨pFile, key, false⟩)
    ∧ (∀ (pFile : HR) (offset n : Nat) (scratch : List Byte) (w : W),
        McneRandomAccessFile.Read env ⟨pFile, key, false⟩ offset n scratch w
          = some (env.raRead pFile ((kMagicNumSize + offset) % kWordModulus) n scratch w))
    ∧ (∀ pFile : HW, McneWritableFile.construct pFile key = ⟨pFile, key, 0, false⟩)
    ∧ (∀ (pFile : HW) (offset : Nat) (data : List Byte) (w : W), ∃ offset1,
        McneWritableFile.Append env ⟨pFile, key, offset, false⟩ data w
          = some ((env.wAppend pFile data w).1,
              ⟨(env.wAppend pFile data w).2.1, key, offset1, false⟩,
              (env.wAppend pFile data w).2.2)) := by
  refine ⟨?_, ?_, ?_, ?_, ?_, ?_, ?_⟩
  · intro pFile; simp [McneSequentialFile.construct, hkey]
  · intro pFile offset n scratch w; simp [McneSequentialFile.Read]
  · intro pFile offset n w
    cases h : (env.seqSkip pFile n w).1.ok
    · exact ⟨offset, by simp [McneSequentialFile.Skip, h]⟩
    · exact ⟨(offset + n) % kWordModulus, by simp [McneSequentialFile.Skip, h]⟩
  · intro pFile; simp [McneRandomAccessFile.construct, hkey]
  · intro pFile offset n scratch w; simp [McneRandomAccessFile.Read]
  · intro pFile; simp [McneWritableFile.construct, hkey]
  · intro pFile offset data w
    exact ⟨(offset + data.length) % kWordModulus, by
      simp [McneWritableFile.Append, Slice.data]⟩

/-- C8, amended, on the reference environment with the empty key. -/
theorem zero_key_decorators_forward_witness :
    ([] : List Byte).length = 0 ∧
    McneRandomAccessFile.Read memEnv (⟨"000005.ldb", [], false⟩ : McneRandomAccessFile String)
        0 2 [0, 0] (MemWorld.empty.put "000005.ldb" (bytesOf "0123456789"))
      = some (memEnv.raRead "000005.ldb" ((kMagicNumSize + 0) % kWordModulus) 2 [0, 0]
          (MemWorld.empty.put "000005.ldb" (bytesOf "0123456789"))) :=
  ⟨rfl, (zero_key_decorators_forward memEnv [] rfl).2.2.2.2.1 "000005.ldb" 0 2 [0, 0]
    (MemWorld.empty.put "000005.ldb" (bytesOf "0123456789"))⟩

/-- C4, at a failing input: under key `secret` on a little-endian host, an empty file
`000005.ldb` whose marker is absent is opened while the uninitialised header union still
holds the bytes `80 1D 30 01`. The underlying open and header read succeed, the read delivers
no byte, and both `NewSequentialFile` and `NewRandomAccessFile` return OK with a decorator
instead of Corruption. -/
theorem header_check_accepts_empty_file :
    (McneWrapper.NewSequentialFile memEnv .little (bytesOf "secret") "000005.ldb"
        [0x80, 0x1D, 0x30, 0x01] (MemWorld.empty.put "000005.ldb" [])).s = Status.OK
    ∧ (McneWrapper.NewSequentialFile memEnv .little (bytesOf "secret") "000005.ldb"
        [0x80, 0x1D, 0x30, 0x01] (MemWorld.empty.put "000005.ldb" [])).result
      = some (.mcne ⟨⟨"000005.ldb", 0⟩, bytesOf "secret", 0, true⟩)
    ∧ (McneWrapper.NewRandomAccessFile memEnv .little (bytesOf "secret") "000005.ldb"
        [0x80, 0x1D, 0x30, 0x01] (MemWorld.empty.put "000005.ldb" [])).s = Status.OK
    ∧ (McneWrapper.NewRandomAccessFile memEnv .little (bytesOf "secret") "000005.ldb"
        [0x80, 0x1D, 0x30, 0x01] (MemWorld.empty.put "000005.ldb" [])).result
      = some (.mcne ⟨"000005.ldb", bytesOf "secret", true⟩) := by
  refine ⟨?_, ?_, ?_, ?_⟩ <;> decide

/-- C5, as stated, fails on a little-endian host: the bytes `NewWritableFile` leaves at the
start of a fresh file are `80 1D 30 01`, not `01 30 1D 80`. -/
theorem magic_header_little_endian_host :
    writtenFile .little (bytesOf "secret") "000005.ldb" [] MemWorld.empty
      = some [0x80, 0x1D, 0x30, 0x01]
    ∧ writtenFile .little (bytesOf "secret") "000005.ldb" [] MemWorld.empty
      ≠ some [0x01, 0x30, 0x1D, 0x80] := by
  constructor <;> decide

/-- C5, amended: for every underlying environment, every non-empty key and every file name
not ending in `.log`, the one byte string `NewWritableFile` appends to the underlying file is
the four bytes of the `int` `0x01301D80` in the host's byte order, in cleartext (on the
reference environment the file written through the factory holds these bytes followed by the
keystream encryption of the payload); these bytes are `80 1D 30 01` on a little-endian host and `01 30 1D 80` on a
big-endian host; and they are what `NewSequentialFile` and `NewRandomAccessFile` accept as
the marker: when the underlying open and header read succeed and the read delivers its four
bytes in the caller's buffer, the open returns OK exactly when those bytes are the same four
bytes. -/
theorem magic_header_host_order {W HS HR HW : Type} (env : Env W HS HR HW) (host : ByteOrder)
    (key : List Byte) (fname : String) (ds : List (List Byte)) (buf : List Byte) (w : W)
    (mw : MemWorld) (hkey : key ≠ []) (hname : ¬ endsWithLog fname)
    (hsize : ds.flatten.length < kWordModulus) :
    ((env.NewWritableFile fname w).1.ok = true →
        (McneWrapper.NewWritableFile (logAppends env) host key fname (w, [])).w.2
          = [storeNum host kMagicNum])
    ∧ writtenFile host key fname ds mw
        = some (storeNum host kMagicNum ++ xorStream key 0 ds.flatten)
    ∧ storeNum host kMagicNum
        = (match host with
          | .little => [0x80, 0x1D, 0x30, 0x01]
          | .big => [0x01, 0x30, 0x1D, 0x80])
    ∧ ((env.NewSequentialFile fname w).1.ok = true →
        ∀ (r : ReadRet) (pFile : HS) (w1 : W),
          env.seqRead (env.NewSequentialFile fname w).2.1 kMagicNumSize buf
              (env.NewSequentialFile fname w).2.2 = (r, pFile, w1) →
          r.s.ok = true → r.result = Slice.inScratch kMagicNumSize →
          ((McneWrapper.NewSequentialFile env host key fname buf w).s = Status.OK
            ↔ r.result.data r.scratch = storeNum host kMagicNum))
    ∧ ((env.NewRandomAccessFile fname w).1.ok = true →
        ∀ (r : ReadRet) (w1 : W),
          env.raRead (env.NewRandomAccessFile fname w).2.1 0 kMagicNumSize buf
              (env.NewRandomAccessFile fname w).2.2 = (r, w1) →
          r.s.ok = true → r.result = Slice.inScratch kMagicNumSize →
          ((McneWrapper.NewRandomAccessFile env host key fname buf w).s = Status.OK
            ↔ r.result.data r.scratch = storeNum host kMagicNum)) := by
  refine ⟨NewWritableFile_log env host key fname w hkey hname,
    writtenFile_eq host key fname ds mw hkey hname hsize, ?_, ?_, ?_⟩
  · cases host
    · exact storeNum_little
    · exact storeNum_big
  · intro hopen r pFile w1 hr hok hres
    have hread : (env.seqRead (env.NewSequentialFile fname w).2.1 kMagicNumSize buf
        (env.NewSequentialFile fname w).2.2).1.s.ok = true := by rw [hr]; exact hok
    rw [NewSequentialFile_status env host key fname buf w hkey hname hopen hread, hr, hres]
    show _ ↔ r.scratch.take 4 = storeNum host kMagicNum
    by_cases hc : r.scratch.take 4 = storeNum host kMagicNum <;> simp [hc]
  · intro hopen r w1 hr hok hres
    have hread : (env.raRead (env.NewRandomAccessFile fname w).2.1 0 kMagicNumSize buf
        (env.NewRandomAccessFile fname w).2.2).1.s.ok = true := by rw [hr]; exact hok
    rw [NewRandomAccessFile_status env host key fname buf w hkey hname hopen hread, hr, hres]
    show _ ↔ r.scratch.take 4 = storeNum host kMagicNum
    by_cases hc : r.scratch.take 4 = storeNum host kMagicNum <;> simp [hc]

/-- C5, amended, on the reference environment at key `secret` on a little-endian host: the
marker is the one string appended on creation, the file written with payload `hello world`
starts with it, and the sample file is accepted. -/
theorem magic_header_host_order_witness :
    bytesOf "secret" ≠ [] ∧ ¬ endsWithLog "000005.ldb" ∧
    (McneWrapper.NewWritableFile (logAppends memEnv) .little (bytesOf "secret") "000005.ldb"
        (sampleWorld, [])).w.2 = [storeNum .little kMagicNum]
    ∧ writtenFile .little (bytesOf "secret") "000005.ldb" [bytesOf "hello world"] MemWorld.empty
      = some (storeNum .little kMagicNum
          ++ xorStream (bytesOf "secret") 0 [bytesOf "hello world"].flatten)
    ∧ ((McneWrapper.NewSequentialFile memEnv .little (bytesOf "secret") "000005.ldb"
          [0, 0, 0, 0] sampleWorld).s = Status.OK
        ↔ (Slice.inScratch kMagicNumSize).data (storeNum .little kMagicNum)
          = storeNum .little kMagicNum) :=
  ⟨by decide, by decide,
    (magic_header_host_order memEnv .little (bytesOf "secret") "000005.ldb"
      [bytesOf "hello world"] [0, 0, 0, 0] sampleWorld MemWorld.empty (by decide) (by decide)
      (by decide)).1 (by decide),
    (magic_header_host_order memEnv .little (bytesOf "secret") "000005.ldb"
      [bytesOf "hello world"] [0, 0, 0, 0] sampleWorld MemWorld.empty (by decide) (by decide)
      (by decide)).2.1,
    (magic_header_host_order memEnv .little (bytesOf "secret") "000005.ldb"
      [bytesOf "hello world"] [0, 0, 0, 0] sampleWorld MemWorld.empty (by decide) (by decide)
      (by decide)).2.2.2.1 (by decide)
      ⟨Status.OK, Slice.inScratch kMagicNumSize, storeNum .little kMagicNum⟩
      ⟨"000005.ldb", 4⟩ sampleWorld.acquire rfl rfl rfl⟩

/-- C10: log files are never framed or encrypted. For every underlying environment, every
key and every file name ending in `.log`, `NewSequentialFile`, `NewRandomAccessFile` and
`NewWritableFile` are plain delegation (the underlying handle itself, no header read, no
marker write, no decorator); so on the reference environment a log file written through the
factory holds exactly the bytes appended, and reading it back through the factory delivers
them unchanged. -/
theorem log_files_delegate {W HS HR HW : Type} (env : Env W HS HR HW) (host : ByteOrder)
    (key : List Byte) (fname : String) (buf : List Byte) (w : W) (hlog : endsWithLog fname) :
    McneWrapper.NewSequentialFile env host key fname buf w
        = delegate SequentialFile.raw (env.NewSequentialFile fname w)
    ∧ McneWrapper.NewRandomAccessFile env host key fname buf w
        = delegate RandomAccessFile.raw (env.NewRandomAccessFile fname w)
    ∧ McneWrapper.NewWritableFile env host key fname w
        = delegate WritableFile.raw (env.NewWritableFile fname w)
    ∧ (∀ (ds : List (List Byte)) (mw : MemWorld),
        writtenFile host key fname ds mw = some ds.flatten)
    ∧ (∀ (ds : List (List Byte)) (reqs : List (Nat × List Byte)) (mw : MemWorld),
        sequentialRoundTrip host key fname ds buf reqs mw
          = some ⟨Status.OK, ds.map (fun _ => Status.OK), Status.OK,
              (chunks ds.flatten (reqs.map Prod.fst)).map (fun c => (Status.OK, c))⟩) := by
  have hm : key.length = 0 ∨ MaybeEncrypted fname = false :=
    Or.inr ((MaybeEncrypted_eq_false_iff fname).mpr hlog)
  obtain ⟨h1, h2, h3⟩ := McneWrapper_delegates env host key fname buf w hm
  refine ⟨h1, h2, h3, ?_, ?_⟩
  · intro ds mw
    obtain ⟨wfile, w1, happend, hfile⟩ := memEnv_appendAll_raw fname ds []
      ((mw.put fname []).acquire) (by simp)
    have hw := (McneWrapper_delegates memEnv host key fname buf mw hm).2.2
    rw [memEnv_open_writable] at hw
    simp only [delegate, Status.ok, if_true] at hw
    simp only [writtenFile, hw, happend, hfile, List.nil_append]
  · intro ds reqs mw
    obtain ⟨wfile, w1, happend, hfile⟩ := memEnv_appendAll_raw fname ds []
      ((mw.put fname []).acquire) (by simp)
    rw [List.nil_append] at hfile
    obtain ⟨sfile, w2, hread⟩ := memEnv_readAll_raw fname ds.flatten w1.acquire
      (by simpa using hfile) reqs 0 (Nat.zero_le _)
    have hw := (McneWrapper_delegates memEnv host key fname buf mw hm).2.2
    have hs := (McneWrapper_delegates memEnv host key fname buf w1 hm).1
    rw [memEnv_open_writable] at hw
    rw [memEnv_open_sequential fname w1 _ hfile] at hs
    simp only [delegate, Status.ok, if_true] at hw hs
    simp only [sequentialRoundTrip, hw, happend, hs, hread, List.drop_zero]

/-- C10 on the reference environment, with key `secret` and the log file `000003.log`. -/
theorem log_files_delegate_witness :
    endsWithLog "000003.log" ∧
    sequentialRoundTrip .little (bytesOf "secret") "000003.log" [bytesOf "hello world"]
        [0, 0, 0, 0] [(11, List.replicate 11 0)] MemWorld.empty
      = some ⟨Status.OK, [Status.OK], Status.OK, [(Status.OK, bytesOf "hello world")]⟩ :=
  ⟨by decide,
    (log_files_delegate memEnv .little (bytesOf "secret") "000003.log" [0, 0, 0, 0]
      MemWorld.empty (by decide)).2.2.2.2 [bytesOf "hello world"] [(11, List.replicate 11 0)]
      MemWorld.empty⟩

/-- C11: append contract. For every underlying environment, every non-empty key, every
running offset `o` and every data `d` (with `o + |d|` in the `size_t` range),
`McneWritableFile::Append(d)` is defined, hands the underlying handle exactly the bytes `c`
with `|c| = |d|` and `c[i] = d[i] XOR key[(o + i) mod keyLength]`, returns the status of the
underlying append verbatim, and leaves the running offset at `o + |d|` whatever that status
is. The data `d` itself is a value that the call does not change. -/
theorem McneWritableFile_Append_contract {W HS HR HW : Type} (env : Env W HS HR HW)
    (pFile : HW) (key : List Byte) (o : Nat) (d : List Byte) (w : W) (hkey : key ≠ [])
    (hfit : o + d.length < kWordModulus) :
    McneWritableFile.Append env ⟨pFile, key, o, true⟩ d w
        = some ((env.wAppend pFile (xorStream key o d) w).1,
            ⟨(env.wAppend pFile (xorStream key o d) w).2.1, key, o + d.length, true⟩,
            (env.wAppend pFile (xorStream key o d) w).2.2)
    ∧ (xorStream key o d).length = d.length
    ∧ (∀ i, i < d.length →
        (xorStream key o d).getD i 0 = d.getD i 0 ^^^ key.getD ((o + i) % key.length) 0) := by
  refine ⟨?_, xorStream_length key o d, fun i hi => xorStream_getD key o d i hi⟩
  rw [McneWritableFile_Append_eq env pFile key o d w hkey, Nat.mod_eq_of_lt hfit]

/-- C11 on the reference environment: key `secret`, running offset 3, data `hello`. -/
theorem McneWritableFile_Append_contract_witness :
    bytesOf "secret" ≠ [] ∧ 3 + (bytesOf "hello").length < kWordModulus ∧
    McneWritableFile.Append memEnv ⟨"000005.ldb", bytesOf "secret", 3, true⟩ (bytesOf "hello")
        (MemWorld.empty.put "000005.ldb" [])
      = some ((memEnv.wAppend "000005.ldb" (xorStream (bytesOf "secret") 3 (bytesOf "hello"))
              (MemWorld.empty.put "000005.ldb" [])).1,
          ⟨(memEnv.wAppend "000005.ldb" (xorStream (bytesOf "secret") 3 (bytesOf "hello"))
              (MemWorld.empty.put "000005.ldb" [])).2.1, bytesOf "secret",
            3 + (bytesOf "hello").length, true⟩,
          (memEnv.wAppend "000005.ldb" (xorStream (bytesOf "secret") 3 (bytesOf "hello"))
              (MemWorld.empty.put "000005.ldb" [])).2.2) :=
  ⟨by decide, by decide,
    (McneWritableFile_Append_contract memEnv "000005.ldb" (bytesOf "secret") 3 (bytesOf "hello")
      (MemWorld.empty.put "000005.ldb" []) (by decide) (by decide)).1⟩

/-- C17: keystream reference equation. For every key with `keyLength > 0`, every starting
phase `p` (an unbounded natural) and every data length `L`, `PerformXorOn` is defined and
leaves byte `i` of the buffer equal to the original byte `i` XOR `key[(p + i) mod keyLength]`
for every `i < L` and equal to the original byte for every index at or beyond `L`; the
incrementally wrapped index `j` of the loop at iteration `i` equals `(p + i) mod keyLength`
and is a valid index into the key. -/
theorem PerformXorOn_reference (key scratch : List Byte) (data : Slice) (p : Nat)
    (hkey : 0 < key.length) :
    PerformXorOn scratch data key p
        = some ((List.range scratch.length).map (fun i =>
            if i < data.size then scratch.getD i 0 ^^^ key.getD ((p + i) % key.length) 0
            else scratch.getD i 0))
    ∧ (∀ i, PerformXorOn.jAt key p i = (p + i) % key.length
        ∧ PerformXorOn.jAt key p i < key.length) := by
  have hne : key ≠ [] := List.length_pos.mp hkey
  refine ⟨?_, fun i => ⟨PerformXorOn.jAt_eq key hkey p i, ?_⟩⟩
  · rw [PerformXorOn_eq _ _ _ _ hne]
    have hlen : (xorStream key p (scratch.take data.size) ++ scratch.drop data.size).length
        = scratch.length := by
      rw [List.length_append, xorStream_length, List.length_take, List.length_drop]; omega
    rw [list_eq_map_range_getD
      (xorStream key p (scratch.take data.size) ++ scratch.drop data.size), hlen]
    congr 1
    apply List.map_congr_left
    intro i hi
    exact xorStream_take_append_drop_getD key scratch p data.size i (List.mem_range.mp hi)
  · rw [PerformXorOn.jAt_eq key hkey p i]
    exact Nat.mod_lt _ hkey

/-- C17 at key `secret`, phase 7, on the buffer `hello world!` with data length 11. -/
theorem PerformXorOn_reference_witness :
    0 < (bytesOf "secret").length ∧
    PerformXorOn (bytesOf "hello world!") (Slice.inScratch 11) (bytesOf "secret") 7
      = some ((List.range (bytesOf "hello world!").length).map (fun i =>
          if i < (Slice.inScratch 11).size then
            (bytesOf "hello world!").getD i 0
              ^^^ (bytesOf "secret").getD ((7 + i) % (bytesOf "secret").length) 0
          else (bytesOf "hello world!").getD i 0)) :=
  ⟨by decide,
    (PerformXorOn_reference (bytesOf "secret") (bytesOf "hello world!") (Slice.inScratch 11) 7
      (by decide)).1⟩

/-- C18: append chunking independence. For every underlying environment, every non-empty key
and every list of byte strings `ds` (of total length in the `size_t` range) appended in order
to a fresh `McneWritableFile`, every append is defined and the concatenation of the byte
strings handed to the underlying handle is the single keystream encryption by `PerformXorOn`
of the concatenated data at start phase 0, whatever the underlying statuses are; and
`PerformXorOn` of `a ++ b` at phase `p` is `PerformXorOn` of `a` at phase `p` followed by
`PerformXorOn` of `b` at phase `p + |a|`. -/
theorem Append_chunking_independent {W HS HR HW : Type} (env : Env W HS HR HW) (pFile : HW)
    (key : List Byte) (ds : List (List Byte)) (w : W) (hkey : key ≠ [])
    (hsize : ds.flatten.length < kWordModulus) :
    (McneWritableFile.run (logAppends env) (McneWritableFile.construct pFile key) ds (w, [])).map
        (fun r => r.2.2.2.flatten)
      = PerformXorOn ds.flatten (Slice.inScratch ds.flatten.length) key 0
    ∧ (PerformXorOn ds.flatten (Slice.inScratch ds.flatten.length) key 0).isSome = true
    ∧ (∀ (a b : List Byte) (p : Nat),
        PerformXorOn (a ++ b) (Slice.inScratch (a ++ b).length) key p
          = (PerformXorOn a (Slice.inScratch a.length) key p).bind (fun x =>
              (PerformXorOn b (Slice.inScratch b.length) key (p + a.length)).map
                (fun y => x ++ y))) := by
  have hwhole : ∀ (l : List Byte) (q : Nat),
      PerformXorOn l (Slice.inScratch l.length) key q = some (xorStream key q l) := by
    intro l q
    rw [PerformXorOn_eq _ _ _ _ hkey]
    simp [Slice.size]
  have hflag : (!decide (key.length = 0)) = true := by
    have : key.length ≠ 0 := fun h => hkey (List.length_eq_zero.mp h)
    simp [this]
  refine ⟨?_, ?_, ?_⟩
  · obtain ⟨ss, file, w1, log1, hrun, hlog⟩ :=
      McneWritableFile_run_log env key hkey ds pFile 0 w [] (by omega)
    rw [McneWritableFile_construct_eq, hflag, hrun, hwhole]
    simp [hlog]
  · rw [hwhole]; rfl
  · intro a b p
    rw [hwhole, hwhole, hwhole, xorStream_append]
    rfl

/-- C18 on the reference environment: key `secret`, the appends `hello` and ` world`. -/
theorem Append_chunking_independent_witness :
    bytesOf "secret" ≠ [] ∧
    (McneWritableFile.run (logAppends memEnv)
        (McneWritableFile.construct "000005.ldb" (bytesOf "secret"))
        [bytesOf "hello", bytesOf " world"] (MemWorld.empty.put "000005.ldb" [], [])).map
        (fun r => r.2.2.2.flatten)
      = PerformXorOn [bytesOf "hello", bytesOf " world"].flatten
          (Slice.inScratch [bytesOf "hello", bytesOf " world"].flatten.length)
          (bytesOf "secret") 0 :=
  ⟨by decide,
    (Append_chunking_independent memEnv "000005.ldb" (bytesOf "secret")
      [bytesOf "hello", bytesOf " world"] (MemWorld.empty.put "000005.ldb" []) (by decide)
      (by decide)).1⟩

/-- C20: no modulo by zero. In every decorator the flag `isEncrypted` set by the constructor
is true if and only if the key length is greater than 0; `PerformXorOn` is undefined exactly
for the empty key; and for every underlying environment, every key (the empty key included)
and every sequence of `Read` / `Skip` calls on a `McneSequentialFile`, of `Read` calls on a
`McneRandomAccessFile` and of `Append` calls on a `McneWritableFile`, every call is defined:
`PerformXorOn` is never reached with an empty key. -/
theorem decorators_never_divide_by_zero {W HS HR HW : Type} (env : Env W HS HR HW)
    (key : List Byte) :
    (∀ pFile : HS, (McneSequentialFile.construct pFile key).isEncrypted = true ↔ 0 < key.length)
    ∧ (∀ pFile : HR,
        (McneRandomAccessFile.construct pFile key).isEncrypted = true ↔ 0 < key.length)
    ∧ (∀ pFile : HW, (McneWritableFile.construct pFile key).isEncrypted = true ↔ 0 < key.length)
    ∧ (∀ (scratch : List Byte) (data : Slice) (offset : Nat),
        PerformXorOn scratch data key offset = none ↔ key.length = 0)
    ∧ (∀ (pFile : HS) (ops : List SeqOp) (w : W),
        (McneSequentialFile.run env (McneSequentialFile.construct pFile key) ops w).isSome = true)
    ∧ (∀ (pFile : HR) (reqs : List (Nat × Nat × List Byte)) (w : W),
        (RandomAccessFile.readAll env (.mcne (McneRandomAccessFile.construct pFile key))
          reqs w).isSome = true)
    ∧ (∀ (pFile : HW) (ds : List (List Byte)) (w : W),
        (McneWritableFile.run env (McneWritableFile.construct pFile key) ds w).isSome = true) := by
  have hflag : (!decide (key.length = 0)) = true ↔ 0 < key.length := by
    by_cases h : key.length = 0 <;> simp [h]
    omega
  refine ⟨?_, ?_, ?_, ?_, ?_, ?_, ?_⟩
  · intro pFile; rw [McneSequentialFile_construct_eq]; exact hflag
  · intro pFile; rw [McneRandomAccessFile_construct_eq]; exact hflag
  · intro pFile; rw [McneWritableFile_construct_eq]; exact hflag
  · intro scratch data offset
    by_cases h : key.length = 0 <;> simp [PerformXorOn, h]
  · intro pFile ops w
    rw [McneSequentialFile_construct_eq]
    cases he : (!decide (key.length = 0))
    · exact McneSequentialFile_run_plain env key ops pFile 0 w
    · obtain ⟨outs, file, w1, hrun, _, _⟩ :=
        McneSequentialFile_run_offset env key (flag_implies_key key he) ops pFile 0 w
          (by decide)
      rw [hrun]; rfl
  · intro pFile reqs w
    rw [McneRandomAccessFile_construct_eq]
    exact RandomAccessFile_readAll_defined env pFile key _ (flag_implies_key key) reqs w
  · intro pFile ds w
    rw [McneWritableFile_construct_eq]
    obtain ⟨ss, file, w1, hrun, _⟩ :=
      McneWritableFile_run_offset env key _ (flag_implies_key key) ds pFile 0 w (by decide)
    rw [hrun]; rfl

/-- C12, at a failing input: key `secret`, a fresh sequential decorator positioned after the
marker of `000005.ldb`, over an underlying handle whose read sets `*result` to bytes in its
own storage. The underlying `Read(5)` succeeds returning the five stored bytes `r`; the
decorator returns OK and the very same bytes `r` through `*result`, not `r` XORed with the
keystream (which would be `hello`), while the running offset advances to 5. -/
theorem McneSequentialFile_Read_returns_raw_bytes :
    (mapEnv.seqRead ⟨"000005.ldb", 4⟩ 5 [0, 0, 0, 0, 0] sampleWorld).1
      = ⟨Status.OK, Slice.external (xorStream (bytesOf "secret") 0 (bytesOf "hello")),
          [0, 0, 0, 0, 0]⟩
    ∧ (McneSequentialFile.Read mapEnv
          (McneSequentialFile.construct ⟨"000005.ldb", 4⟩ (bytesOf "secret")) 5
          [0, 0, 0, 0, 0] sampleWorld).map
        (fun r => (r.1.s, r.1.result.data r.1.scratch, r.2.1.offset))
      = some (Status.OK, xorStream (bytesOf "secret") 0 (bytesOf "hello"), 5)
    ∧ xorStream (bytesOf "secret") 0 (xorStream (bytesOf "secret") 0 (bytesOf "hello"))
      = bytesOf "hello"
    ∧ xorStream (bytesOf "secret") 0 (bytesOf "hello") ≠ bytesOf "hello" := by
  refine ⟨?_, ?_, ?_, ?_⟩ <;> decide

/-- C13, at a failing input: key `secret`, a random-access decorator on `000005.ldb` over an
underlying handle whose read sets `*result` to bytes in its own storage (a memory-mapped
file). The underlying read at physical offset 10 of length 5 succeeds returning the stored
bytes `r`; `Read(6, 5)` returns OK and the very same bytes `r` through `*result`, not `r`
XORed with the keystream at phase 6 (which would be `world`). -/
theorem McneRandomAccessFile_Read_returns_raw_bytes :
    (mapEnv.raRead "000005.ldb" 10 5 [0, 0, 0, 0, 0] sampleWorld).1
      = ⟨Status.OK, Slice.external (xorStream (bytesOf "secret") 6 (bytesOf "world")),
          [0, 0, 0, 0, 0]⟩
    ∧ (McneRandomAccessFile.Read mapEnv
          (McneRandomAccessFile.construct "000005.ldb" (bytesOf "secret")) 6 5
          [0, 0, 0, 0, 0] sampleWorld).map
        (fun r => (r.1.s, r.1.result.data r.1.scratch))
      = some (Status.OK, xorStream (bytesOf "secret") 6 (bytesOf "world"))
    ∧ xorStream (bytesOf "secret") 6 (xorStream (bytesOf "secret") 6 (bytesOf "world"))
      = bytesOf "world"
    ∧ xorStream (bytesOf "secret") 6 (bytesOf "world") ≠ bytesOf "world" := by
  refine ⟨?_, ?_, ?_, ?_⟩ <;> decide

/-- C19, at a failing input: key `secret` on a little-endian host, the file `000005.ldb`
holding the marker and the encrypted payload `hello world`, over an underlying environment
whose reads set `*result` to bytes in its own storage and leave the scratch buffer untouched.
The bytes exposed through `*result` by `McneSequentialFile::Read` and
`McneRandomAccessFile::Read` are the stored ciphertext, not the plaintext; and
`NewSequentialFile` and `NewRandomAccessFile` compare the untouched union with the marker
and fail with Corruption although the header read returned the marker. -/
theorem decryption_misses_the_result_slice :
    (McneSequentialFile.Read mapEnv
          (McneSequentialFile.construct ⟨"000005.ldb", 4⟩ (bytesOf "secret")) 11
          (List.replicate 11 0) sampleWorld).map
        (fun r => (r.1.s, r.1.result.data r.1.scratch))
      = some (Status.OK, xorStream (bytesOf "secret") 0 (bytesOf "hello world"))
    ∧ (McneRandomAccessFile.Read mapEnv
          (McneRandomAccessFile.construct "000005.ldb" (bytesOf "secret")) 0 11
          (List.replicate 11 0) sampleWorld).map
        (fun r => (r.1.s, r.1.result.data r.1.scratch))
      = some (Status.OK, xorStream (bytesOf "secret") 0 (bytesOf "hello world"))
    ∧ xorStream (bytesOf "secret") 0 (bytesOf "hello world") ≠ bytesOf "hello world"
    ∧ (mapEnv.seqRead ⟨"000005.ldb", 0⟩ kMagicNumSize [0, 0, 0, 0] sampleWorld).1.result
      = Slice.external (storeNum .little kMagicNum)
    ∧ (McneWrapper.NewSequentialFile mapEnv .little (bytesOf "secret") "000005.ldb"
          [0, 0, 0, 0] sampleWorld).s
      = Status.Corruption "corrupted encrypted file" ""
    ∧ (McneWrapper.NewRandomAccessFile mapEnv .little (bytesOf "secret") "000005.ldb"
          [0, 0, 0, 0] sampleWorld).s
      = Status.Corruption "corrupted encrypted file" "" := by
  refine ⟨?_, ?_, ?_, ?_, ?_, ?_⟩ <;> decide

/-- C15, as stated, fails. With key `secret`, a fresh sequential decorator on a file with 11
payload bytes and one `Read(20)`: 11 bytes are returned, the offset is 20. With the empty
key, one `Read(5)` returns 5 bytes and the offset stays 0. -/
theorem offset_is_not_bytes_consumed :
    (McneSequentialFile.run memEnv
          (McneSequentialFile.construct ⟨"000005.ldb", 4⟩ (bytesOf "secret"))
          [SeqOp.read 20 (List.replicate 20 0)] sampleWorld).map
        (fun r => (consumedTotal r.1, r.2.1.offset))
      = some (11, 20)
    ∧ (McneSequentialFile.run memEnv (McneSequentialFile.construct ⟨"000005.ldb", 4⟩ [])
          [SeqOp.read 5 (List.replicate 5 0)] sampleWorld).map
        (fun r => (consumedTotal r.1, r.2.1.offset))
      = some (5, 0) := by
  constructor <;> decide

/-- C15, amended: after every sequence of operations since creation, the running offset of a
`McneSequentialFile` with a non-empty key equals, modulo the `size_t` range, the sum of the
counts requested by the `Read` and `Skip` calls that succeeded, which is the number of
plaintext bytes consumed whenever every successful call consumed as many bytes as it
requested; the running offset of a `McneWritableFile`, for every key, equals, modulo the
`size_t` range, the number of bytes passed to `Append`, whatever the underlying statuses.
Both start at 0 at creation, so header bytes are never counted. -/
theorem offset_counts_requested {W HS HR HW : Type} (env : Env W HS HR HW) (key : List Byte)
    (pS : HS) (pW : HW) (ops : List SeqOp) (ds : List (List Byte)) (w : W) :
    (key ≠ [] →
      ∃ outs file w1,
        McneSequentialFile.run env (McneSequentialFile.construct pS key) ops w
          = some (outs, file, w1)
        ∧ file.offset = requestedByOk outs % kWordModulus
        ∧ ((∀ out ∈ outs, out.s.ok = true → out.consumed = out.requested) →
            file.offset = consumedTotal outs % kWordModulus))
    ∧ (∃ ss file w1,
        McneWritableFile.run env (McneWritableFile.construct pW key) ds w = some (ss, file, w1)
        ∧ file.offset = ds.flatten.length % kWordModulus)
    ∧ (McneSequentialFile.construct pS key).offset = 0
    ∧ (McneWritableFile.construct pW key).offset = 0 := by
  refine ⟨?_, ?_, ?_, ?_⟩
  · intro hkey
    have hflag : (!decide (key.length = 0)) = true := by
      have : key.length ≠ 0 := fun h => hkey (List.length_eq_zero.mp h)
      simp [this]
    obtain ⟨outs, file, w1, hrun, hoff, hfail⟩ :=
      McneSequentialFile_run_offset env key hkey ops pS 0 w (by decide)
    rw [Nat.zero_add] at hoff
    refine ⟨outs, file, w1, ?_, hoff, ?_⟩
    · rw [McneSequentialFile_construct_eq, hflag]; exact hrun
    · intro hall
      rw [consumedTotal_eq_requestedByOk outs hall hfail]; exact hoff
  · obtain ⟨ss, file, w1, hrun, hoff⟩ :=
      McneWritableFile_run_offset env key _ (flag_implies_key key) ds pW 0 w (by decide)
    rw [Nat.zero_add] at hoff
    exact ⟨ss, file, w1, by rw [McneWritableFile_construct_eq]; exact hrun, hoff⟩
  · rw [McneSequentialFile_construct_eq]
  · rw [McneWritableFile_construct_eq]

/-- C15, amended, on the reference environment: key `secret`, the calls `Read(3)`, `Skip(2)`,
`Read(20)` on the sample file. -/
theorem offset_counts_requested_witness :
    bytesOf "secret" ≠ [] ∧
    ∃ outs file w1,
      McneSequentialFile.run memEnv
          (McneSequentialFile.construct ⟨"000005.ldb", 4⟩ (bytesOf "secret"))
          [SeqOp.read 3 [0, 0, 0], SeqOp.skip 2, SeqOp.read 20 (List.replicate 20 0)]
          sampleWorld
        = some (outs, file, w1)
      ∧ file.offset = requestedByOk outs % kWordModulus
      ∧ ((∀ out ∈ outs, out.s.ok = true → out.consumed = out.requested) →
          file.offset = consumedTotal outs % kWordModulus) :=
  ⟨by decide,
    (offset_counts_requested memEnv (bytesOf "secret") ⟨"000005.ldb", 4⟩ "000005.ldb"
      [SeqOp.read 3 [0, 0, 0], SeqOp.skip 2, SeqOp.read 20 (List.replicate 20 0)] []
      sampleWorld).1 (by decide)⟩

/-- C16, as stated, fails: with the empty key, the underlying environment opens the log file
`000003.log` for appending and returns OK, while `McneWrapper::NewAppendableFile` returns
NotSupported and hands back no handle. -/
theorem NewAppendableFile_does_not_delegate :
    (memEnv.NewAppendableFile "000003.log" (MemWorld.empty.put "000003.log" [])).1 = Status.OK
    ∧ (McneWrapper.NewAppendableFile memEnv [] "000003.log"
        (MemWorld.empty.put "000003.log" [])).s
      = Status.NotSupported "NewAppendableFile" "000003.log"
    ∧ (McneWrapper.NewAppendableFile memEnv [] "000003.log"
        (MemWorld.empty.put "000003.log" [])).result = none
    ∧ (delegate WritableFile.raw
        (memEnv.NewAppendableFile "000003.log" (MemWorld.empty.put "000003.log" []))).result
      = some (WritableFile.raw "000003.log") := by
  refine ⟨?_, ?_, ?_, ?_⟩ <;> decide

/-- C16, amended: when the key has length 0, `McneWrapper::NewAppendableFile` does not
delegate; as for every other key it returns NotSupported, hands back no handle and leaves
the world untouched, so its outcome differs from plain delegation whenever the underlying
`NewAppendableFile` would succeed. -/
theorem NewAppendableFile_zero_key_not_supported {W HS HR HW : Type} (env : Env W HS HR HW)
    (key : List Byte) (fname : String) (w : W) (_hkey : key.length = 0) :
    (McneWrapper.NewAppendableFile env key fname w).s
        = Status.NotSupported "NewAppendableFile" fname
    ∧ (McneWrapper.NewAppendableFile env key fname w).result = none
    ∧ (McneWrapper.NewAppendableFile env key fname w).w = w
    ∧ ((env.NewAppendableFile fname w).1.ok = true →
        (McneWrapper.NewAppendableFile env key fname w).s
          ≠ (delegate WritableFile.raw (env.NewAppendableFile fname w)).s) := by
  refine ⟨rfl, rfl, rfl, ?_⟩
  intro hok h
  have hs : (delegate WritableFile.raw (env.NewAppendableFile fname w)).s
      = (env.NewAppendableFile fname w).1 := rfl
  rw [hs] at h
  rw [← h] at hok
  exact absurd hok (by simp [McneWrapper.NewAppendableFile, Status.ok])

/-- C16, amended, on the reference environment with the empty key. -/
theorem NewAppendableFile_zero_key_not_supported_witness :
    ([] : List Byte).length = 0 ∧
    (McneWrapper.NewAppendableFile memEnv [] "000003.log"
        (MemWorld.empty.put "000003.log" [])).s
      = Status.NotSupported "NewAppendableFile" "000003.log" :=
  ⟨rfl,
    (NewAppendableFile_zero_key_not_supported memEnv [] "000003.log"
      (MemWorld.empty.put "000003.log" []) rfl).1⟩

end leveldb
